import Mathlib

/-!
Verification of the elastik map-projection core
(`src/create_map_projection.py`, `src/util.py`).

The Python source is shallowly embedded below: pure numpy pipelines become
Lean functions over lists and index functions, machine floats become exact
reals (for the strain / energy analysis) or rationals (for the skeleton
interpolation weights, which are ratios of hop counts), the absent-node
sentinel NaN becomes the top element of `WithTop ℚ` (numpy's structured row
sort treats NaN as the greatest value and as equal to itself), and the
unbounded `while` loop of `follow_graph` becomes a fuel-indexed recursion.
Fallible code returns `Except`/`Option`.
-/

namespace Elastik

/-- Python/numpy negative-index wrap: index `i` into an axis of length
`size`; negative indices count from the end. (Out-of-range nonnegative
indices are left as-is; every use in this development is in range.) -/
def wrapIdx (size : ℕ) (i : ℤ) : ℕ :=
  (if i < 0 then i + size else i).toNat

/-- Fancy-index a list with a possibly negative integer index, with a
default for out-of-range access. -/
def pyGetL (l : List α) (d : α) (i : ℤ) : α :=
  l.getD (wrapIdx l.length i) d

/-- Index a function-backed array of the given logical size with numpy
negative-index semantics. -/
def pyGetF (f : ℕ → α) (size : ℕ) (i : ℤ) : α :=
  f (wrapIdx size i)

/-! ## Cells and the strain evaluator -/

/-- One row of `cell_definitions` after the first five working columns are
chopped off (`cell_definitions[:, 5:]` in `enumerate_cells`): the section
index, the grid location `(i, j)` used for spatially dependent lookups
(`i` is the row the spacing arrays are read at), and the four corner node
indices. -/
structure Cell where
  h : ℤ
  i : ℤ
  j : ℤ
  west : ℤ
  east : ℤ
  south : ℤ
  north : ℤ
  deriving Repr, DecidableEq

/-- `compute_principal_strains` (create_map_projection.py:260-285) for one
cell: form the two finite-difference Jacobian columns and return
`(trace + antitrace, trace - antitrace)`. -/
noncomputable def principalStrainsCell (positions : ℤ → ℝ × ℝ)
    (dΦ dΛ : ℤ → ℝ) (c : Cell) (scale : ℝ) : ℝ × ℝ :=
  let west := positions c.west
  let east := positions c.east
  let dxdΛ := (east.1 - west.1) / (dΛ c.i / scale)
  let dydΛ := (east.2 - west.2) / (dΛ c.i / scale)
  let south := positions c.south
  let north := positions c.north
  let dxdΦ := (north.1 - south.1) / (dΦ c.i / scale)
  let dydΦ := (north.2 - south.2) / (dΦ c.i / scale)
  let trace := Real.sqrt ((dxdΛ + dydΦ) ^ 2 + (dxdΦ - dydΛ) ^ 2) / 2
  let antitrace := Real.sqrt ((dxdΛ - dydΦ) ^ 2 + (dxdΦ + dydΛ) ^ 2) / 2
  (trace + antitrace, trace - antitrace)

/-- `compute_principal_strains` over the whole cell list (the numpy code is
elementwise over the parallel `cell_definitions` / `cell_scales` arrays). -/
noncomputable def computePrincipalStrains (positions : ℤ → ℝ × ℝ)
    (cells : List Cell) (scales : List ℝ) (dΦ dΛ : ℤ → ℝ) : List (ℝ × ℝ) :=
  List.zipWith (principalStrainsCell positions dΦ dΛ) cells scales

/-! ## The three energy functions

Each objective in `create_map_projection` (lines 502-533) is a closure over
the current `restore` operator and the cell data; it maps a (reduced)
position vector to a float that may be `+inf` or `-inf`.  The value domain
is embedded as an explicit three-way sum. -/

/-- A Python float result that is either `-inf`, finite, or `+inf`. -/
inductive EnergyVal where
  | negInf : EnergyVal
  | finite : ℝ → EnergyVal
  | posInf : EnergyVal

open Classical in
/-- `compute_energy_aggressive` (create_map_projection.py:502-512). -/
noncomputable def computeEnergyAggressive
    (restore : (ℤ → ℝ × ℝ) → ℤ → ℝ × ℝ)
    (cells : List Cell) (scales : List ℝ) (dΦ dΛ : ℤ → ℝ)
    (positions : ℤ → ℝ × ℝ) : EnergyVal :=
  let s := computePrincipalStrains (restore positions) cells scales dΦ dΛ
  if ∀ p ∈ s, 0 < p.1 ∧ 0 < p.2 then
    .negInf
  else if ∃ p ∈ s, p.1 < -100 ∨ p.2 < -100 then
    .posInf
  else
    .finite ((s.map (fun p => Real.exp (-6 * p.1) + Real.exp (-6 * p.2))).sum)

open Classical in
/-- `compute_energy_lenient` (create_map_projection.py:514-522), exactly as
written in the source — including its early `-inf` return when every cell
has both principal strains positive. -/
noncomputable def computeEnergyLenient
    (restore : (ℤ → ℝ × ℝ) → ℤ → ℝ × ℝ)
    (cells : List Cell) (scales : List ℝ) (weights : List ℝ) (dΦ dΛ : ℤ → ℝ)
    (positions : ℤ → ℝ × ℝ) : EnergyVal :=
  let s := computePrincipalStrains (restore positions) cells scales dΦ dΛ
  if ∀ p ∈ s, 0 < p.1 ∧ 0 < p.2 then
    .negInf
  else
    .finite ((List.zipWith
      (fun (p : ℝ × ℝ) w => ((p.1 + p.2 - 2) ^ 2 + 2 * (p.1 - p.2) ^ 2) * w)
      s weights).sum)

open Classical in
/-- `compute_energy_strict` (create_map_projection.py:524-533). -/
noncomputable def computeEnergyStrict
    (restore : (ℤ → ℝ × ℝ) → ℤ → ℝ × ℝ)
    (cells : List Cell) (scales : List ℝ) (weights : List ℝ) (dΦ dΛ : ℤ → ℝ)
    (positions : ℤ → ℝ × ℝ) : EnergyVal :=
  let s := computePrincipalStrains (restore positions) cells scales dΦ dΛ
  if ∃ p ∈ s, p.1 ≤ 0 ∨ p.2 ≤ 0 then
    .posInf
  else
    .finite ((List.zipWith
      (fun (p : ℝ × ℝ) w =>
        (((p.1 * p.2) ^ 2 - 1) / 2 - Real.log (p.1 * p.2)
          + 2 * (p.1 - p.2) ^ 2) * w)
      s weights).sum)

/-! ### Concrete strain inputs used throughout -/

/-- A concrete three-node position vector: node 0 at the origin, node 1 one
unit east, node 2 one unit north. -/
noncomputable def posUnit : ℤ → ℝ × ℝ := fun k =>
  if k = 0 then (0, 0) else if k = 1 then (1, 0) else if k = 2 then (0, 1)
  else (0, 0)

/-- A single cell whose west and south corners are node 0, east corner node
1, north corner node 2. -/
def cellUnit : Cell := ⟨0, 0, 0, 0, 1, 0, 2⟩

/-- Like `posUnit` but with node 1 one unit WEST of the origin, so the cell
is reflected: its minor strain is negative. -/
noncomputable def posRefl : ℤ → ℝ × ℝ := fun k =>
  if k = 0 then (0, 0) else if k = 1 then (-1, 0) else if k = 2 then (0, 1)
  else (0, 0)

/-- A strongly reflected cell: node 1 at `(-300, 0)` and node 2 at
`(0, 300)`, giving principal strains `(300, -300)`. -/
noncomputable def posBig : ℤ → ℝ × ℝ := fun k =>
  if k = 0 then (0, 0) else if k = 1 then (-300, 0)
  else if k = 2 then (0, 300) else (0, 0)


/-! ## Lookup tables, neighbor graphs, and `mesh_skeleton`

`mesh_skeleton` (create_map_projection.py:176-257) consumes the node-index
lookup table.  Numpy integer arrays indexed by node id are embedded as
functions `ℕ → ℤ` (respectively `ℕ → Bool`) built by folding the source's
loops over all index triples; `-1` is the "no neighbor" sentinel exactly as
in the source. -/

/-- A `(section, row, column) → node index or -1` lookup table together
with its shape. -/
structure Table where
  S : ℕ
  R : ℕ
  C : ℕ
  tab : ℕ → ℕ → ℕ → ℤ

/-- All `(h, i, j)` triples of a table, in the order the source's triple
loops visit them. -/
def Table.triples (t : Table) : List (ℕ × ℕ × ℕ) :=
  (List.range t.S).flatMap fun h =>
    (List.range t.R).flatMap fun i =>
      (List.range t.C).map fun j => (h, i, j)

/-- `np.max(lookup_table) + 1` (line 193). -/
def Table.nFullZ (t : Table) : ℤ :=
  (t.triples.map fun hij => t.tab hij.1 hij.2.1 hij.2.2).foldl max (-1) + 1

/-- The number of nodes, as a natural number. -/
def Table.nFull (t : Table) : ℕ := t.nFullZ.toNat

/-- Write `v` into a function-backed integer array of the given size at
(possibly negative, numpy-wrapped) index `k`. -/
def setAt (f : ℕ → ℤ) (size : ℕ) (k v : ℤ) : ℕ → ℤ :=
  fun m => if m = wrapIdx size k then v else f m

/-- `array[k] |= b` on a function-backed boolean array. -/
def orAt (f : ℕ → Bool) (size : ℕ) (k : ℤ) (b : Bool) : ℕ → Bool :=
  fun m => if m = wrapIdx size k then f m || b else f m

/-- The four directional neighbor arrays. -/
structure Neighbors where
  west : ℕ → ℤ
  east : ℕ → ℤ
  south : ℕ → ℤ
  north : ℕ → ℤ

/-- The neighbor-graph construction loop of `mesh_skeleton`
(create_map_projection.py:195-210). -/
def buildNeighbors (t : Table) : Neighbors :=
  let n := t.nFull
  t.triples.foldl
    (fun nb hij =>
      let h := hij.1
      let i := hij.2.1
      let j := hij.2.2
      if t.tab h i j ≠ -1 then
        let nb := if 1 ≤ j ∧ t.tab h i (j - 1) ≠ -1 then
            { nb with west := setAt nb.west n (t.tab h i j) (t.tab h i (j - 1)) }
          else nb
        let nb := if j + 1 < t.C ∧ t.tab h i (j + 1) ≠ -1 then
            { nb with east := setAt nb.east n (t.tab h i j) (t.tab h i (j + 1)) }
          else nb
        let nb := if 1 ≤ i ∧ t.tab h (i - 1) j ≠ -1 then
            { nb with south := setAt nb.south n (t.tab h i j) (t.tab h (i - 1) j) }
          else nb
        if i + 1 < t.R ∧ t.tab h (i + 1) j ≠ -1 then
          { nb with north := setAt nb.north n (t.tab h i j) (t.tab h (i + 1) j) }
        else nb
      else nb)
    ⟨fun _ => -1, fun _ => -1, fun _ => -1, fun _ => -1⟩

/-- `min(i, ф.size - 1 - i) % factor == 0` (line 221).  The source's
`factor` is a whole-number float ≥ 1 produced by `np.ceil(np.geomspace(…))`
in the driver; it is embedded as a natural number. -/
def importantRow (R factor i : ℕ) : Bool :=
  decide (min i (R - 1 - i) % factor = 0)

/-- The accumulation loop of lines 216-224: `has_defined_neibors[node] |=
important_row` (array of size `nFull + 1`, with the extra trailing `False`
slot) and `is_defined[node] |= important_col` (size `nFull`).  `ewf i` is
the per-row `east_west_factor`; `%` on Python ints is floor-mod. -/
def rawFlags (t : Table) (factor : ℕ) (ewf : ℕ → ℤ) :
    (ℕ → Bool) × (ℕ → Bool) :=
  let n := t.nFull
  t.triples.foldl
    (fun st hij =>
      let h := hij.1
      let i := hij.2.1
      let j := hij.2.2
      if t.tab h i j ≠ -1 then
        (orAt st.1 (n + 1) (t.tab h i j) (importantRow t.R factor i),
         orAt st.2 n (t.tab h i j) (Int.fmod (j : ℤ) (ewf i) == 0))
      else st)
    (fun _ => false, fun _ => false)

/-- `has_defined_neibors` after line 226: nodes lacking a north or south
neighbor are marked (only the first `nFull` slots; the extra slot stays
`False` so that index `-1` reads `False`). -/
def hdnOf (t : Table) (factor : ℕ) (ewf : ℕ → ℤ) : ℕ → Bool :=
  let n := t.nFull
  let nb := buildNeighbors t
  let hdn0 := (rawFlags t factor ewf).1
  fun k =>
    if k < n then hdn0 k || (nb.north k == -1) || (nb.south k == -1)
    else hdn0 k

/-- `is_defined` after lines 227-228: edge columns are added (reading
`has_defined_neibors` at the neighbor index, where `-1` wraps to the extra
`False` slot), then masked by `has_defined_neibors`. -/
def isDefOf (t : Table) (factor : ℕ) (ewf : ℕ → ℤ) : ℕ → Bool :=
  let n := t.nFull
  let nb := buildNeighbors t
  let hdn := hdnOf t factor ewf
  let isd0 := (rawFlags t factor ewf).2
  fun k =>
    (isd0 k || !(pyGetF hdn (n + 1) (nb.east k))
      || !(pyGetF hdn (n + 1) (nb.west k))) && hdn k

/-- `np.where(is_defined, np.cumsum(is_defined) - 1, -1)` (line 230). -/
def reindexOf (isd : ℕ → Bool) : ℕ → ℤ :=
  fun k =>
    if isd k then ((List.range (k + 1)).countP (fun m => isd m) : ℤ) - 1
    else -1

/-- `follow_graph` (create_map_projection.py:52-69), with the unbounded
`while` loop made fuel-indexed: `.ok (some _)` is normal return, `.error _`
is the `ValueError` raised when an active state maps to itself, and
`.ok none` means the fuel ran out (the source loops forever: an active
terminating walk never revisits a state, so with fuel `nFull + 1` the fuel
can only run out on a diverging input). -/
def followGraph (prog : ℤ → ℤ) (untl : ℤ → Bool) :
    ℕ → List ℤ → List ℕ → Except String (Option (List ℤ × List ℕ))
  | fuel, state, dist =>
    if state.all (fun s => untl s) then .ok (some (state, dist))
    else if state.any (fun s => !untl s && (prog s == s)) then
      .error "this importance graff was about to cause an infinite loop."
    else
      match fuel with
      | 0 => .ok none
      | fuel + 1 =>
        followGraph prog untl fuel
          (state.map fun s => if untl s then s else prog s)
          (List.zipWith (fun s d => if untl s then d else d + 1) state dist)

/-- `get_interpolation_weits` (create_map_projection.py:72-81), one
element at a time (the numpy code is elementwise).  Distances are hop
counts, so the weights live in `ℚ`. -/
def getInterpolationWeits (da db : ℚ) : ℚ × ℚ :=
  let wa := if da + db ≠ 0 then db / (da + db) else 1
  (wa, 1 - wa)

/-- The data of one `(reduce, restore)` skeleton level: which nodes are
key nodes, the key-rank reindexing, and each node's four directional
references with their interpolation weights. -/
structure Skeleton where
  nFull : ℕ
  isDef : ℕ → Bool
  reindex : ℕ → ℤ
  refs : List (ℤ × ℤ × ℤ × ℤ)
  weits : List (ℚ × ℚ × ℚ × ℚ)

/-- Sequence two possibly-diverging, possibly-raising computations. -/
def walkBind (x : Except String (Option α))
    (f : α → Except String (Option β)) : Except String (Option β) :=
  match x with
  | .error e => .error e
  | .ok none => .ok none
  | .ok (some a) => f a

/-- `mesh_skeleton` (create_map_projection.py:176-257) with the per-row
`east_west_factor` supplied as a function (its trigonometric formula is
split into `eastWestFactor` below).  The six `follow_graph` walks of lines
234-242 run with fuel `nFull + 1`, which suffices for every terminating
run. -/
def meshSkeletonCore (t : Table) (factor : ℕ) (ewf : ℕ → ℤ) :
    Except String (Option Skeleton) :=
  let n := t.nFull
  let nb := buildNeighbors t
  let hdn := hdnOf t factor ewf
  let isd := isDefOf t factor ewf
  let untilHdn : ℤ → Bool := fun s => pyGetF hdn (n + 1) s
  let untilDef : ℤ → Bool := fun s => pyGetF isd n s
  let frum : List ℤ := (List.range n).map fun k : ℕ => (k : ℤ)
  let zeros : List ℕ := List.replicate n 0
  walkBind (followGraph (fun s => pyGetF nb.north n s) untilHdn (n + 1) frum zeros)
    fun nWalk =>
  walkBind (followGraph (fun s => pyGetF nb.east n s) untilDef (n + 1) nWalk.1 zeros)
    fun neWalk =>
  walkBind (followGraph (fun s => pyGetF nb.west n s) untilDef (n + 1) nWalk.1 zeros)
    fun nwWalk =>
  walkBind (followGraph (fun s => pyGetF nb.south n s) untilHdn (n + 1) frum zeros)
    fun sWalk =>
  walkBind (followGraph (fun s => pyGetF nb.east n s) untilDef (n + 1) sWalk.1 zeros)
    fun seWalk =>
  walkBind (followGraph (fun s => pyGetF nb.west n s) untilDef (n + 1) sWalk.1 zeros)
    fun swWalk =>
  let nsw : ℕ → ℚ × ℚ := fun k =>
    getInterpolationWeits (nWalk.2.getD k 0 : ℕ) (sWalk.2.getD k 0 : ℕ)
  let ew1 : ℕ → ℚ × ℚ := fun k =>
    getInterpolationWeits (neWalk.2.getD k 0 : ℕ) (nwWalk.2.getD k 0 : ℕ)
  let ew2 : ℕ → ℚ × ℚ := fun k =>
    getInterpolationWeits (seWalk.2.getD k 0 : ℕ) (swWalk.2.getD k 0 : ℕ)
  .ok (some
    { nFull := n
      isDef := isd
      reindex := reindexOf isd
      refs := (List.range n).map fun k =>
        (neWalk.1.getD k (-1), nwWalk.1.getD k (-1),
         seWalk.1.getD k (-1), swWalk.1.getD k (-1))
      weits := (List.range n).map fun k =>
        ((nsw k).1 * (ew1 k).1, (nsw k).1 * (ew1 k).2,
         (nsw k).2 * (ew2 k).1, (nsw k).2 * (ew2 k).2) })

open Classical in
/-- Python `round` (banker's rounding, round-half-to-even) on a real. -/
noncomputable def roundHalfEven (x : ℝ) : ℤ :=
  if Int.fract x < 1 / 2 then ⌊x⌋
  else if 1 / 2 < Int.fract x then ⌊x⌋ + 1
  else if Even ⌊x⌋ then ⌊x⌋ else ⌊x⌋ + 1

/-- `east_west_factor = int(round(factor/np.cos(ф[i])))` (line 218). -/
noncomputable def eastWestFactor (factor : ℕ) (lat : ℕ → ℝ) (i : ℕ) : ℤ :=
  roundHalfEven ((factor : ℝ) / Real.cos (lat i))

/-- `mesh_skeleton` proper: the latitude array determines the per-row
column stride. -/
noncomputable def meshSkeleton (t : Table) (factor : ℕ) (lat : ℕ → ℝ) :
    Except String (Option Skeleton) :=
  meshSkeletonCore t factor (eastWestFactor factor lat)

/-- Modelled from the spec: `sparse.py` (`DenseSparseArray`) is not under
`src/`; §4.2 describes `identity(n)` restricted to a boolean mask as the
row-selection operator used for `reduce` (line 254).  Applying it keeps
exactly the key-node rows, in index order. -/
def reduceApply (sk : Skeleton) (positions : List (ℚ × ℚ)) : List (ℚ × ℚ) :=
  ((List.range sk.nFull).filter fun k => sk.isDef k).map
    fun k => positions.getD k (0, 0)

/-- Scalar times 2-vector. -/
def smul2 (q : ℚ) (p : ℚ × ℚ) : ℚ × ℚ := (q * p.1, q * p.2)

/-- 2-vector addition. -/
def add2 (p q : ℚ × ℚ) : ℚ × ℚ := (p.1 + q.1, p.2 + q.2)

/-- Modelled from the spec: `DenseSparseArray.from_coordinates` (line 255)
is not under `src/`; §4.2 describes the restoration operator's output row
`k` as the weighted sum of the referenced input rows, here the four rows
`reindex[defining_indices[k]]` of the reduced vector with weights
`defining_weits[k]`. -/
def restoreApply (sk : Skeleton) (reduced : List (ℚ × ℚ)) : List (ℚ × ℚ) :=
  (List.range sk.nFull).map fun k =>
    let r := sk.refs.getD k (-1, -1, -1, -1)
    let w := sk.weits.getD k (0, 0, 0, 0)
    add2
      (add2 (smul2 w.1 (pyGetL reduced (0, 0) (pyGetF sk.reindex sk.nFull r.1)))
            (smul2 w.2.1 (pyGetL reduced (0, 0) (pyGetF sk.reindex sk.nFull r.2.1))))
      (add2 (smul2 w.2.2.1 (pyGetL reduced (0, 0) (pyGetF sk.reindex sk.nFull r.2.2.1)))
            (smul2 w.2.2.2 (pyGetL reduced (0, 0) (pyGetF sk.reindex sk.nFull r.2.2.2))))

/-! ## Scalar-walk helpers

`follow_graph` advances all start states synchronously, but when it
returns, each entry equals the result of walking alone: `walkIter` and
`walkSteps` are that per-state walk, used to characterize the
synchronized result. -/

/-- The state reached from `s` after at most `fuel` single steps of
`prog`, stopping at the first state satisfying `untl`. -/
def walkIter (prog : ℤ → ℤ) (untl : ℤ → Bool) : ℕ → ℤ → ℤ
  | 0, s => s
  | fuel + 1, s => if untl s then s else walkIter prog untl fuel (prog s)

/-- The number of steps the walk from `s` takes within `fuel`. -/
def walkSteps (prog : ℤ → ℤ) (untl : ℤ → Bool) : ℕ → ℤ → ℕ
  | 0, _ => 0
  | fuel + 1, s => if untl s then 0 else walkSteps prog untl fuel (prog s) + 1

/-- The section of canonical node `n` (grid shape `R × C` per section). -/
def canonSec (R C n : ℕ) : ℕ := n / (R * C)

/-- The row of canonical node `n`. -/
def canonRow (R C n : ℕ) : ℕ := (n / C) % R

/-- The column of canonical node `n`. -/
def canonCol (C n : ℕ) : ℕ := n % C

/-- Whether every node of a given row of a canonical fully-defined grid
has `has_defined_neibors`: the row is an importance anchor, the top row,
or the bottom row. -/
def rowHdn (R factor r : ℕ) : Bool :=
  importantRow R factor r || decide (r + 1 = R) || decide (r = 0)

/-! ## `enumerate_nodes`

`enumerate_nodes` (create_map_projection.py:84-98) flattens the mesh to an
(n, 2) row array, calls `np.unique(axis=0, return_inverse=True)`, cuts the
sorted unique rows at the first NaN row, and maps the cut-off indices to
-1.  `np.unique(axis=0)` views the rows as a structured dtype and sorts
them lexicographically with numpy's float compare, which orders NaN after
every number and equal to itself — so the NaN sentinel is embedded as the
top element `⊤` of `WithTop ℚ`. -/

/-- One flattened mesh position row; `⊤` is the NaN sentinel. -/
abbrev NodeRow := WithTop ℚ × WithTop ℚ

/-- The absent-position row `(nan, nan)`. -/
def nanRow : NodeRow := (⊤, ⊤)

/-- Lexicographic row comparison used by the structured-row sort inside
`np.unique(axis=0)`. -/
def rowle (a b : NodeRow) : Prop :=
  a.1 < b.1 ∨ (a.1 = b.1 ∧ a.2 ≤ b.2)

instance : DecidableRel rowle := fun a b => by
  unfold rowle
  infer_instance

instance : IsTotal NodeRow rowle := ⟨by
  intro a b
  unfold rowle
  rcases lt_trichotomy a.1 b.1 with h | h | h
  · exact Or.inl (Or.inl h)
  · rcases le_total a.2 b.2 with h2 | h2
    · exact Or.inl (Or.inr ⟨h, h2⟩)
    · exact Or.inr (Or.inr ⟨h.symm, h2⟩)
  · exact Or.inr (Or.inl h)⟩

instance : IsTrans NodeRow rowle := ⟨by
  intro a b c hab hbc
  unfold rowle at *
  rcases hab with h | ⟨he, h2⟩ <;> rcases hbc with h' | ⟨he', h2'⟩
  · exact Or.inl (h.trans h')
  · exact Or.inl (he' ▸ h)
  · exact Or.inl (he ▸ h')
  · exact Or.inr ⟨he.trans he', h2.trans h2'⟩⟩

/-- `np.unique(..., axis=0)`: the sorted list of distinct rows. -/
def uniqueRows (rows : List NodeRow) : List NodeRow :=
  rows.dedup.insertionSort rowle

/-- `enumerate_nodes` on the flattened row list: the inverse index array is
`return_inverse` (each row's position in the unique list), the first
NaN-first-coordinate row is looked up with `np.nonzero(...)[0][0]` — an
IndexError when no row is NaN — and every index at or past it becomes -1
while the position list is truncated there. -/
def enumerateNodes (rows : List NodeRow) :
    Except String (List ℤ × List NodeRow) :=
  match (uniqueRows rows).findIdx? (fun r => decide (r.1 = ⊤)) with
  | none => .error "IndexError: index 0 is out of bounds for axis 0 with size 0"
  | some nanIdx =>
    .ok ((rows.map fun r => ((uniqueRows rows).indexOf r : ℤ)).map
          (fun ix => if (nanIdx : ℤ) ≤ ix then -1 else ix),
         (uniqueRows rows).take nanIdx)

/-! ## `enumerate_cells`

`enumerate_cells` (create_map_projection.py:101-173) resamples the value
and scale rasters, assembles all candidate cells for the four diagonal
corner-offset combinations, deduplicates them by the 4-corner tuple
(`np.unique` keeps the first occurrence of each key, ordered by key),
drops cells touching index -1 or with coincident row-paired corners, and
computes area weights and linear scales. -/

/-- A per-section raster: either a scalar array (`np.array(1.)`, shape
`()`, as produced for the "uniform" option) or a full 2-D grid. -/
inductive Raster where
  | scalar : ℝ → Raster
  | grid : List (List ℝ) → Raster

/-- `np.mean` of a list. -/
noncomputable def listMean (l : List ℝ) : ℝ := l.sum / l.length

/-- `downsample` (create_map_projection.py:34-49): a scalar is broadcast;
a grid is mean-pooled onto the coarser shape after the source's asserts
that every target dimension is strictly smaller.  The nearest-neighbor
bin of source index `a` is `floor(a / F * r)`. -/
noncomputable def downsample (full : Raster) (shape : ℕ × ℕ) :
    Except String (ℕ → ℕ → ℝ) :=
  match full with
  | .scalar v => .ok fun _ _ => v
  | .grid g =>
    let F0 := g.length
    let F1 := (g.headD []).length
    if shape.1 < F0 ∧ shape.2 < F1 then
      .ok fun i j =>
        listMean
          (((List.range F0).filter fun a => a * shape.1 / F0 = i).flatMap
            fun a =>
              ((List.range F1).filter fun b => b * shape.2 / F1 = j).map
                fun b => (g.getD a []).getD b 0)
    else .error "AssertionError"

/-- Resample every section's raster to the grid resolution (the loop of
lines 122-124; a missing list entry is the IndexError Python would
raise). -/
noncomputable def downsampleAll (t : Table) (rs : List Raster) :
    Except String (List (ℕ → ℕ → ℝ)) :=
  (List.range t.S).mapM fun h =>
    match rs[h]? with
    | none => .error "IndexError: list index out of range"
    | some r => downsample r (t.R, t.C)

/-- One 12-column row of the pre-chop `cell_definitions` array (lines
141-146): `(h, i, j)` working indices, the two candidate row indices
`i + di` and `i + 1 - di`, the spatial indices `(h, i + di, j + dj)`, and
the four corner nodes. -/
structure Cand where
  h : ℤ
  i : ℤ
  j : ℤ
  node1i : ℤ
  node2i : ℤ
  h2 : ℤ
  i2 : ℤ
  j2 : ℤ
  west : ℤ
  east : ℤ
  south : ℤ
  north : ℤ
  deriving Repr, DecidableEq, Inhabited

/-- All candidate cells, in the source's order: the `(di, dj)` blocks are
concatenated outerly, each over all `(h, i, j)` with `i < R - 1` and
`j < C - 1`. -/
def cellCandidates (t : Table) : List Cand :=
  (List.range 2).flatMap fun di =>
    (List.range 2).flatMap fun dj =>
      ((List.range t.S).flatMap fun h =>
        (List.range (t.R - 1)).flatMap fun i =>
          (List.range (t.C - 1)).map fun j => (h, i, j)).map
        fun (hij : ℕ × ℕ × ℕ) =>
          let h : ℕ := hij.1
          let i : ℕ := hij.2.1
          let j : ℕ := hij.2.2
          { h := (h : ℤ), i := (i : ℤ), j := (j : ℤ),
            node1i := ((i + di : ℕ) : ℤ), node2i := ((i + 1 - di : ℕ) : ℤ),
            h2 := (h : ℤ), i2 := ((i + di : ℕ) : ℤ), j2 := ((j + dj : ℕ) : ℤ),
            west := t.tab h (i + di) j,
            east := t.tab h (i + di) (j + 1),
            south := t.tab h i (j + dj),
            north := t.tab h (i + 1) (j + dj) }

/-- The last four columns, the `np.unique` key (line 149). -/
def candKey (c : Cand) : ℤ × ℤ × ℤ × ℤ := (c.west, c.east, c.south, c.north)

/-- Lexicographic order on the 4-corner key. -/
def keyle (a b : ℤ × ℤ × ℤ × ℤ) : Prop :=
  a.1 < b.1 ∨ (a.1 = b.1 ∧ (a.2.1 < b.2.1 ∨ (a.2.1 = b.2.1 ∧
    (a.2.2.1 < b.2.2.1 ∨ (a.2.2.1 = b.2.2.1 ∧ a.2.2.2 ≤ b.2.2.2)))))

instance : DecidableRel keyle := fun a b => by
  unfold keyle
  infer_instance

/-- `np.unique(cell_definitions[:, -4:], axis=0, return_index=True)` and
the row selection of line 150: one representative per distinct key — the
first occurrence, since `return_index` uses a stable sort — ordered by
sorted key. -/
def uniqueByKey (cands : List Cand) : List Cand :=
  ((cands.map candKey).dedup.insertionSort keyle).map
    fun k => cands.getD (cands.findIdx fun c => candKey c == k) default

/-- Lines 152-155: drop cells that rely on missing nodes or whose two
row-paired corners coincide. -/
def keptCands (t : Table) : List Cand :=
  (uniqueByKey (cellCandidates t)).filter fun c =>
    !(c.west == -1 || c.east == -1 || c.south == -1 || c.north == -1)
      && !(c.west == c.east)

/-- `cell_definitions[:, 5:]` (line 163). -/
def Cand.toCell (c : Cand) : Cell :=
  ⟨c.h2, c.i2, c.j2, c.west, c.east, c.south, c.north⟩

/-- `enumerate_cells`: resample the rasters, then return the kept cell
list with its weights (`(3·A₁+A₂)/16` normalized by the sphere area,
times the resampled value) and linear scales (square root of the
resampled areal scale). -/
noncomputable def enumerateCells (t : Table) (values scales : List Raster)
    (dΦ dΛ : ℤ → ℝ) : Except String (List Cell × List ℝ × List ℝ) :=
  match downsampleAll t values with
  | .error e => .error e
  | .ok vals =>
    match downsampleAll t scales with
    | .error e => .error e
    | .ok scls =>
      let kept := keptCands t
      .ok (kept.map Cand.toCell,
        kept.map fun c =>
          let A1 := dΦ c.node1i * dΛ c.node1i
          let A2 := dΦ c.node2i * dΛ c.node2i
          let area := (3 * A1 + A2) / 16 / (4 * Real.pi * 6378.137 ^ 2)
          area * (vals.getD c.h.toNat fun _ _ => 0) c.i.toNat c.j.toNat,
        kept.map fun c =>
          Real.sqrt ((scls.getD c.h.toNat fun _ _ => 0) c.i.toNat c.j.toNat))

/-! ## Concrete lookup tables -/

/-- The canonical fully-defined lookup table: `S` sections of `R × C`
all-distinct nodes, numbered in row-major order (as `enumerate_nodes`
numbers an all-distinct fully-defined grid). -/
def canonTable (S R C : ℕ) : Table :=
  ⟨S, R, C, fun h i j => (((h * R + i) * C + j : ℕ) : ℤ)⟩

/-- The output of `enumerate_cells` on a 2×2 fully-defined single-section
grid with uniform scalar rasters and unit spacings. -/
noncomputable def demoCellsOut : Except String (List Cell × List ℝ × List ℝ) :=
  enumerateCells (canonTable 1 2 2) [.scalar 1] [.scalar 1]
    (fun _ => 1) (fun _ => 1)

/-- Its cell-list component. -/
noncomputable def demoCells : List Cell :=
  match demoCellsOut with
  | .ok (c, _, _) => c
  | _ => []

/-- Its weight component. -/
noncomputable def demoWs : List ℝ :=
  match demoCellsOut with
  | .ok (_, w, _) => w
  | _ => []

/-- Its scale component. -/
noncomputable def demoSs : List ℝ :=
  match demoCellsOut with
  | .ok (_, _, s) => s
  | _ => []

/-- A synthetic lookup table whose neighbor graph is an isolated 2-node
loop with no reachable row-anchor: two sections of a single column over 8
rows; section 0 stacks node 0 (row 1) under node 1 (row 2), section 1
stacks node 1 (row 1) under node 0 (row 2).  Hence `north` and `south`
both swap nodes 0 and 1, and rows 1 and 2 are not important rows for
factor 3, so no walk can arrive. -/
def synthTable : Table :=
  ⟨2, 8, 1, fun h i _ =>
    if h = 0 then (if i = 1 then 0 else if i = 2 then 1 else -1)
    else if h = 1 then (if i = 1 then 1 else if i = 2 then 0 else -1)
    else -1⟩

/-- The north-progression accessor of the first `follow_graph` call that
`mesh_skeleton` makes on `synthTable`. -/
def synthProgNorth : ℤ → ℤ :=
  fun s => pyGetF (buildNeighbors synthTable).north synthTable.nFull s

/-- The `has_defined_neibors` arrival predicate of that call (factor 3 at
equatorial latitudes, where `east_west_factor = 3`). -/
def synthUntilHdn : ℤ → Bool :=
  fun s => pyGetF (hdnOf synthTable 3 (fun _ => 3)) (synthTable.nFull + 1) s

/-- The skeleton produced for the fully-defined 5×5 single-section grid
with factor 2 at equatorial latitudes (`east_west_factor = 2`). -/
def skel55 : Skeleton :=
  match meshSkeletonCore (canonTable 1 5 5) 2 (fun _ => 2) with
  | .ok (some sk) => sk
  | _ => ⟨0, fun _ => false, fun _ => -1, [], []⟩

/-- A 4-tuple of convex-combination weights: all non-negative, summing
to 1. -/
def convexWeights (w : ℚ × ℚ × ℚ × ℚ) : Prop :=
  0 ≤ w.1 ∧ 0 ≤ w.2.1 ∧ 0 ≤ w.2.2.1 ∧ 0 ≤ w.2.2.2
    ∧ w.1 + w.2.1 + w.2.2.1 + w.2.2.2 = 1

/-- The weighted sum of the four referenced original positions: what one
row of `restore @ (reduce @ positions)` should be. -/
def restoreRowFormula (n : ℕ) (positions : List (ℚ × ℚ))
    (r : ℤ × ℤ × ℤ × ℤ) (w : ℚ × ℚ × ℚ × ℚ) : ℚ × ℚ :=
  add2
    (add2 (smul2 w.1 (positions.getD (wrapIdx n r.1) (0, 0)))
          (smul2 w.2.1 (positions.getD (wrapIdx n r.2.1) (0, 0))))
    (add2 (smul2 w.2.2.1 (positions.getD (wrapIdx n r.2.2.1) (0, 0)))
          (smul2 w.2.2.2 (positions.getD (wrapIdx n r.2.2.2) (0, 0))))

/-- The skeleton produced for the fully-defined 2×2 single-section grid
with factor 1 and column stride 1. -/
def skel122 : Skeleton :=
  match meshSkeletonCore (canonTable 1 2 2) 1 (fun _ => 1) with
  | .ok (some sk) => sk
  | _ => ⟨0, fun _ => false, fun _ => -1, [], []⟩

/-! ## Proofs -/

lemma roundHalfEven_natCast (k : ℕ) : roundHalfEven (k : ℝ) = (k : ℤ) := by
  unfold roundHalfEven
  rw [show ((k : ℝ) = ((k : ℤ) : ℝ)) by push_cast; ring, Int.fract_intCast]
  norm_num

lemma eastWestFactor_zero (factor : ℕ) :
    eastWestFactor factor (fun _ => 0) = fun _ => (factor : ℤ) := by
  funext i
  unfold eastWestFactor
  rw [Real.cos_zero, div_one, roundHalfEven_natCast]

/-- One synchronized step of the diverging walk on `synthTable`:
state `[0, 1]` becomes `[1, 0]`. -/
lemma synth_step1 (fuel : ℕ) (d : List ℕ) :
    followGraph synthProgNorth synthUntilHdn (fuel + 1) [0, 1] d
      = followGraph synthProgNorth synthUntilHdn fuel [1, 0]
          (List.zipWith (fun s x => if synthUntilHdn s then x else x + 1)
            [0, 1] d) := rfl

/-- And state `[1, 0]` becomes `[0, 1]` again. -/
lemma synth_step2 (fuel : ℕ) (d : List ℕ) :
    followGraph synthProgNorth synthUntilHdn (fuel + 1) [1, 0] d
      = followGraph synthProgNorth synthUntilHdn fuel [0, 1]
          (List.zipWith (fun s x => if synthUntilHdn s then x else x + 1)
            [1, 0] d) := rfl

/-- The two-node-loop walk neither arrives nor raises: for every fuel it
just runs out (`.ok none`), i.e. the source loops forever. -/
lemma synth_walk_loops : ∀ (fuel : ℕ) (d : List ℕ),
    followGraph synthProgNorth synthUntilHdn fuel [0, 1] d = .ok none ∧
    followGraph synthProgNorth synthUntilHdn fuel [1, 0] d = .ok none := by
  intro fuel
  induction fuel with
  | zero => exact fun d => ⟨rfl, rfl⟩
  | succ fuel ih =>
    intro d
    constructor
    · rw [synth_step1]
      exact (ih _).2
    · rw [synth_step2]
      exact (ih _).1

lemma sqrt_four : Real.sqrt 4 = 2 := by
  rw [show (4 : ℝ) = 2 ^ 2 by norm_num, Real.sqrt_sq (by norm_num)]

/-- With unit spacings and unit scale, the unit cell has principal strains
`(1, 1)`. -/
lemma strains_unit :
    computePrincipalStrains posUnit [cellUnit] [1] (fun _ => 1) (fun _ => 1)
      = [(1, 1)] := by
  simp only [computePrincipalStrains, List.zipWith, principalStrainsCell,
    cellUnit, posUnit]
  norm_num [sqrt_four]

lemma strains_refl :
    computePrincipalStrains posRefl [cellUnit] [1] (fun _ => 1) (fun _ => 1)
      = [(1, -1)] := by
  simp only [computePrincipalStrains, List.zipWith, principalStrainsCell,
    cellUnit, posRefl]
  norm_num [sqrt_four]

lemma strains_big :
    computePrincipalStrains posBig [cellUnit] [1] (fun _ => 1) (fun _ => 1)
      = [(300, -300)] := by
  have h : Real.sqrt 360000 = 600 := by
    rw [show (360000 : ℝ) = 600 ^ 2 by norm_num, Real.sqrt_sq (by norm_num)]
  simp only [computePrincipalStrains, List.zipWith, principalStrainsCell,
    cellUnit, posBig]
  norm_num [h]

/-- Membership in an elementwise combination of two parallel lists. -/
lemma mem_zipWith {f : α → β → γ} {l₁ : List α} {l₂ : List β} {c : γ}
    (h : c ∈ List.zipWith f l₁ l₂) :
    ∃ a b, a ∈ l₁ ∧ b ∈ l₂ ∧ c = f a b := by
  induction l₁ generalizing l₂ with
  | nil => simp at h
  | cons x xs ih =>
    cases l₂ with
    | nil => simp at h
    | cons y ys =>
      rcases List.mem_cons.mp h with h' | h'
      · exact ⟨x, y, List.mem_cons_self _ _, List.mem_cons_self _ _, h'⟩
      · obtain ⟨a, b, ha, hb, hc⟩ := ih h'
        exact ⟨a, b, List.mem_cons_of_mem _ ha, List.mem_cons_of_mem _ hb, hc⟩

/-! ## Claim theorems about the strain evaluator and energy functions -/

/-- Every strain pair is of the form `(trace + antitrace, trace -
antitrace)` with both parts non-negative square roots. -/
lemma principalStrainsCell_shape (positions : ℤ → ℝ × ℝ) (dΦ dΛ : ℤ → ℝ)
    (c : Cell) (s : ℝ) :
    ∃ t a : ℝ, 0 ≤ t ∧ 0 ≤ a ∧
      principalStrainsCell positions dΦ dΛ c s = (t + a, t - a) := by
  unfold principalStrainsCell
  exact ⟨_, _, div_nonneg (Real.sqrt_nonneg _) (by norm_num),
    div_nonneg (Real.sqrt_nonneg _) (by norm_num), rfl⟩

/-- C10: every `(major, minor)` pair produced by `compute_principal_strains`
satisfies `major ≥ minor` and `major ≥ 0`, because trace and antitrace are
non-negative square roots. -/
theorem principal_strains_major_ge_minor (positions : ℤ → ℝ × ℝ)
    (cells : List Cell) (scales : List ℝ) (dΦ dΛ : ℤ → ℝ) :
    ∀ p ∈ computePrincipalStrains positions cells scales dΦ dΛ,
      p.2 ≤ p.1 ∧ 0 ≤ p.1 := by
  intro p hp
  obtain ⟨c, s, _, _, rfl⟩ := mem_zipWith hp
  obtain ⟨t, a, ht, ha, heq⟩ := principalStrainsCell_shape positions dΦ dΛ c s
  rw [heq]
  exact ⟨by simp; linarith, by simp; linarith⟩

/-- C10 witness: the unit cell's strain pair `(1, 1)` satisfies the
inequalities. -/
theorem principal_strains_major_ge_minor_witness :
    ((1:ℝ), (1:ℝ)).2 ≤ ((1:ℝ), (1:ℝ)).1 ∧ (0:ℝ) ≤ ((1:ℝ), (1:ℝ)).1 :=
  principal_strains_major_ge_minor posUnit [cellUnit] [1]
    (fun _ => 1) (fun _ => 1) (1, 1) (by rw [strains_unit]; simp)

/-- C6: for an identity planar mapping in matching units (the
east-west position difference of each cell equals the row's longitude
spacing, the north-south difference equals the latitude spacing, and all
cell scales are 1), `compute_principal_strains` returns `(1, 1)` for every
cell. -/
theorem principal_strains_identity_map (positions : ℤ → ℝ × ℝ)
    (cells : List Cell) (dΦ dΛ : ℤ → ℝ)
    (hid : ∀ c ∈ cells,
      (positions c.east).1 - (positions c.west).1 = dΛ c.i ∧
      (positions c.east).2 - (positions c.west).2 = 0 ∧
      (positions c.north).1 - (positions c.south).1 = 0 ∧
      (positions c.north).2 - (positions c.south).2 = dΦ c.i ∧
      dΛ c.i ≠ 0 ∧ dΦ c.i ≠ 0) :
    ∀ p ∈ computePrincipalStrains positions cells
        (List.replicate cells.length 1) dΦ dΛ, p = (1, 1) := by
  intro p hp
  obtain ⟨c, s, hc, hs, rfl⟩ := mem_zipWith hp
  obtain ⟨h1, h2, h3, h4, h5, h6⟩ := hid c hc
  have hs1 : s = 1 := List.eq_of_mem_replicate hs
  simp only [principalStrainsCell]
  rw [hs1, div_one, div_one, h1, h2, h3, h4, div_self h5, div_self h6,
    zero_div, zero_div]
  norm_num [sqrt_four]

/-- C6 witness: the concrete unit cell under the identity mapping has
strain list `[(1, 1)]`. -/
theorem principal_strains_identity_map_witness :
    computePrincipalStrains posUnit [cellUnit]
      (List.replicate [cellUnit].length 1) (fun _ => 1) (fun _ => 1)
      = [(1, 1)] := by
  have h := principal_strains_identity_map posUnit [cellUnit]
    (fun _ => 1) (fun _ => 1) (by intro c hc; simp at hc; subst hc
                                  simp [cellUnit, posUnit])
  have hlen : (computePrincipalStrains posUnit [cellUnit]
      (List.replicate [cellUnit].length 1) (fun _ => 1) (fun _ => 1)).length
      = 1 := by
    simp [computePrincipalStrains]
  obtain ⟨a, ha⟩ := List.length_eq_one.mp hlen
  rw [ha]
  rw [ha] at h
  rw [h a (List.mem_singleton_self a)]

/-- C1: the code of `compute_energy_lenient` returns `-inf` (not a finite
value) on a position vector whose every cell has both principal strains
positive — here a single undistorted cell with strains `(1, 1)` — because
of the early-return branch copied from the aggressive objective. -/
theorem compute_energy_lenient_negInf_on_valid_input :
    computeEnergyLenient id [cellUnit] [1] [1] (fun _ => 1) (fun _ => 1)
      posUnit = .negInf := by
  unfold computeEnergyLenient
  simp only [id_eq, strains_unit]
  rw [if_pos]
  intro p hp
  rw [List.mem_singleton.mp hp]
  norm_num

/-- C4: `compute_energy_strict` returns `+inf` iff some cell has major
strain `≤ 0` or minor strain `≤ 0`; otherwise it returns the finite value
`Σ w·[((ab)²−1)/2 − ln(ab) + 2(a−b)²]` over the cells. -/
theorem compute_energy_strict_posInf_iff
    (restore : (ℤ → ℝ × ℝ) → ℤ → ℝ × ℝ)
    (cells : List Cell) (scales : List ℝ) (weights : List ℝ)
    (dΦ dΛ : ℤ → ℝ) (positions : ℤ → ℝ × ℝ) :
    (computeEnergyStrict restore cells scales weights dΦ dΛ positions
        = .posInf
      ↔ ∃ p ∈ computePrincipalStrains (restore positions) cells scales dΦ dΛ,
          p.1 ≤ 0 ∨ p.2 ≤ 0)
    ∧ (¬(∃ p ∈ computePrincipalStrains (restore positions) cells scales dΦ dΛ,
          p.1 ≤ 0 ∨ p.2 ≤ 0) →
        computeEnergyStrict restore cells scales weights dΦ dΛ positions
          = .finite ((List.zipWith
              (fun (p : ℝ × ℝ) w =>
                (((p.1 * p.2) ^ 2 - 1) / 2 - Real.log (p.1 * p.2)
                  + 2 * (p.1 - p.2) ^ 2) * w)
              (computePrincipalStrains (restore positions) cells scales dΦ dΛ)
              weights).sum)) := by
  unfold computeEnergyStrict
  by_cases hc : ∃ p ∈ computePrincipalStrains (restore positions)
      cells scales dΦ dΛ, p.1 ≤ 0 ∨ p.2 ≤ 0
  · rw [if_pos hc]
    exact ⟨⟨fun _ => hc, fun _ => rfl⟩, fun h => absurd hc h⟩
  · rw [if_neg hc]
    exact ⟨⟨fun h => by exact absurd h (by simp), fun h => absurd h hc⟩,
      fun _ => rfl⟩

/-- C4 witness: on the reflected cell (strains `(1, -1)`) the strict energy
is `+inf`; on the undistorted cell (strains `(1, 1)`) it is the finite
value `0`. -/
theorem compute_energy_strict_posInf_iff_witness :
    computeEnergyStrict id [cellUnit] [1] [1] (fun _ => 1) (fun _ => 1)
        posRefl = .posInf
    ∧ computeEnergyStrict id [cellUnit] [1] [1] (fun _ => 1) (fun _ => 1)
        posUnit = .finite 0 := by
  constructor
  · exact (compute_energy_strict_posInf_iff id [cellUnit] [1] [1]
      (fun _ => 1) (fun _ => 1) posRefl).1.mpr
      (by rw [id_eq, strains_refl]; exact ⟨(1, -1), by simp, Or.inr (by norm_num)⟩)
  · have h := (compute_energy_strict_posInf_iff id [cellUnit] [1] [1]
      (fun _ => 1) (fun _ => 1) posUnit).2
      (by rw [id_eq, strains_unit]; rintro ⟨p, hp, hbad⟩
          rw [List.mem_singleton.mp hp] at hbad; revert hbad; norm_num)
    rw [h, id_eq, strains_unit]
    norm_num [Real.log_one]

/-- C7: `compute_energy_aggressive` returns `-inf` whenever every cell has
both principal strains positive; returns `+inf` when (not every cell is
valid and) some strain is below `-100`; and otherwise returns
`Σ (e^(−6a) + e^(−6b))` over the cells. -/
theorem compute_energy_aggressive_cases
    (restore : (ℤ → ℝ × ℝ) → ℤ → ℝ × ℝ)
    (cells : List Cell) (scales : List ℝ) (dΦ dΛ : ℤ → ℝ)
    (positions : ℤ → ℝ × ℝ) :
    ((∀ p ∈ computePrincipalStrains (restore positions) cells scales dΦ dΛ,
        0 < p.1 ∧ 0 < p.2) →
      computeEnergyAggressive restore cells scales dΦ dΛ positions = .negInf)
    ∧ (¬(∀ p ∈ computePrincipalStrains (restore positions) cells scales dΦ dΛ,
          0 < p.1 ∧ 0 < p.2) →
       (∃ p ∈ computePrincipalStrains (restore positions) cells scales dΦ dΛ,
          p.1 < -100 ∨ p.2 < -100) →
      computeEnergyAggressive restore cells scales dΦ dΛ positions = .posInf)
    ∧ (¬(∀ p ∈ computePrincipalStrains (restore positions) cells scales dΦ dΛ,
          0 < p.1 ∧ 0 < p.2) →
       ¬(∃ p ∈ computePrincipalStrains (restore positions) cells scales dΦ dΛ,
          p.1 < -100 ∨ p.2 < -100) →
      computeEnergyAggressive restore cells scales dΦ dΛ positions
        = .finite (((computePrincipalStrains (restore positions) cells scales
              dΦ dΛ).map
            (fun p => Real.exp (-6 * p.1) + Real.exp (-6 * p.2))).sum)) := by
  refine ⟨fun h => ?_, fun h1 h2 => ?_, fun h1 h2 => ?_⟩
  · unfold computeEnergyAggressive
    rw [if_pos h]
  · unfold computeEnergyAggressive
    rw [if_neg h1, if_pos h2]
  · unfold computeEnergyAggressive
    rw [if_neg h1, if_neg h2]

/-- C7 witness: the three branches at concrete inputs — all-valid strains
`(1, 1)` give `-inf`; strains `(300, -300)` give `+inf`; strains `(1, -1)`
give the finite value `e^{-6} + e^{6}`. -/
theorem compute_energy_aggressive_cases_witness :
    computeEnergyAggressive id [cellUnit] [1] (fun _ => 1) (fun _ => 1)
        posUnit = .negInf
    ∧ computeEnergyAggressive id [cellUnit] [1] (fun _ => 1) (fun _ => 1)
        posBig = .posInf
    ∧ computeEnergyAggressive id [cellUnit] [1] (fun _ => 1) (fun _ => 1)
        posRefl = .finite (Real.exp (-6) + Real.exp 6) := by
  refine ⟨?_, ?_, ?_⟩
  · exact (compute_energy_aggressive_cases id [cellUnit] [1]
      (fun _ => 1) (fun _ => 1) posUnit).1
      (by rw [id_eq, strains_unit]; intro p hp
          rw [List.mem_singleton.mp hp]; norm_num)
  · exact (compute_energy_aggressive_cases id [cellUnit] [1]
      (fun _ => 1) (fun _ => 1) posBig).2.1
      (by rw [id_eq, strains_big]; intro h
          have := h (300, -300) (by simp); norm_num at this)
      (by rw [id_eq, strains_big]
          exact ⟨(300, -300), by simp, Or.inr (by norm_num)⟩)
  · have h := (compute_energy_aggressive_cases id [cellUnit] [1]
      (fun _ => 1) (fun _ => 1) posRefl).2.2
      (by rw [id_eq, strains_refl]; intro h
          have := h (1, -1) (by simp); norm_num at this)
      (by rw [id_eq, strains_refl]; rintro ⟨p, hp, hbad⟩
          rw [List.mem_singleton.mp hp] at hbad; revert hbad; norm_num)
    rw [h, id_eq, strains_refl]
    norm_num

/-- C2: on the synthetic lookup table whose neighbor graph is an isolated
2-node loop with no reachable row-anchor, `mesh_skeleton` does NOT raise
the malformed-mesh `ValueError`: the loop guard only detects self-loops
(`progression[state] == state`), and here the progression swaps the two
nodes, so the first neighbor walk spins forever — for every fuel the walk
neither arrives nor errors, and the construction diverges instead of
raising. -/
theorem mesh_skeleton_two_node_loop_diverges :
    meshSkeleton synthTable 3 (fun _ => 0) = .ok none
    ∧ ∀ (fuel : ℕ) (d : List ℕ),
        followGraph synthProgNorth synthUntilHdn fuel [0, 1] d = .ok none :=
  ⟨rfl, fun fuel d => (synth_walk_loops fuel d).1⟩

set_option maxRecDepth 100000 in
set_option maxHeartbeats 2000000 in
/-- C5: on the fully-defined 5×5 single-section grid (all node indices
distinct, none absent) at equatorial latitudes, `mesh_skeleton` with
factor 2 succeeds and marks exactly the 9 key nodes at row indices
{0,2,4} × column indices {0,2,4} (node ids i*5+j), and the matching
restoration operator maps the 9-element all-ones reduced vector back to
the 25-element all-ones vector exactly. -/
theorem mesh_skeleton_5x5_factor2 :
    ∃ sk, meshSkeleton (canonTable 1 5 5) 2 (fun _ => 0) = .ok (some sk)
      ∧ (List.range sk.nFull).filter (fun k => sk.isDef k)
          = [0, 2, 4, 10, 12, 14, 20, 22, 24]
      ∧ restoreApply sk (List.replicate 9 (1, 1))
          = List.replicate 25 ((1 : ℚ), (1 : ℚ)) := by
  refine ⟨skel55, ?_, ?_, ?_⟩
  · unfold meshSkeleton
    rw [eastWestFactor_zero]
    exact rfl
  · with_unfolding_all decide
  · with_unfolding_all decide

/-! ### `enumerate_nodes` proofs -/

lemma mem_uniqueRows {rows : List NodeRow} {r : NodeRow} :
    r ∈ uniqueRows rows ↔ r ∈ rows := by
  unfold uniqueRows
  rw [(List.perm_insertionSort rowle _).mem_iff, List.mem_dedup]

lemma nodup_uniqueRows (rows : List NodeRow) : (uniqueRows rows).Nodup :=
  ((List.perm_insertionSort rowle _).nodup_iff).mpr (List.nodup_dedup rows)

lemma sorted_uniqueRows (rows : List NodeRow) :
    List.Sorted rowle (uniqueRows rows) :=
  List.sorted_insertionSort rowle _

lemma indexOf_spec {l : List NodeRow} {r : NodeRow} (h : r ∈ l) :
    l.indexOf r < l.length ∧ l[l.indexOf r]? = some r := by
  induction l with
  | nil => simp at h
  | cons a tl ih =>
    by_cases hra : a = r
    · subst hra
      have h0 : (a :: tl).indexOf a = 0 := by
        rw [List.indexOf_cons]
        have hb : (a == a) = true := beq_self_eq_true a
        rw [hb]
        rfl
      rw [h0]
      exact ⟨Nat.succ_pos _, by simp⟩
    · have htl : r ∈ tl := by
        rcases List.mem_cons.mp h with h' | h'
        · exact absurd h'.symm hra
        · exact h'
      obtain ⟨h1, h2⟩ := ih htl
      have hcons : (a :: tl).indexOf r = tl.indexOf r + 1 := by
        rw [List.indexOf_cons]
        have hb : (a == r) = false := beq_eq_false_iff_ne.mpr hra
        rw [hb]
        rfl
      rw [hcons]
      exact ⟨Nat.succ_lt_succ h1, by rw [List.getElem?_cons_succ]; exact h2⟩

lemma dedup_const {α : Type _} [DecidableEq α] (x : α) :
    ∀ (l : List α), l ≠ [] → (∀ r ∈ l, r = x) → l.dedup = [x] := by
  intro l
  induction l with
  | nil => intro h _; exact absurd rfl h
  | cons a tl ih =>
    intro _ hall
    have ha : a = x := hall a (List.mem_cons_self a tl)
    cases tl with
    | nil => simp [ha]
    | cons b tl2 =>
      have hb : b = x := hall b (by simp)
      have hmem : a ∈ b :: tl2 := by
        rw [ha, hb]
        exact List.mem_cons_self x tl2
      rw [List.dedup_cons_of_mem hmem]
      exact ih (by simp) fun r hr => hall r (List.mem_cons_of_mem _ hr)

/-- C9: `enumerate_nodes` succeeds exactly when the grid has an absent
(NaN) entry.  With at least one sentinel row it returns the deduplicated
finite position list with every sentinel entry mapped to -1 and every
finite entry mapped to the index of its own position; an all-absent grid
yields the empty position list; and with no NaN entry the first-NaN lookup
fails with an out-of-bounds IndexError instead of returning the node
list. -/
theorem enumerate_nodes_nan_behavior (rows : List NodeRow)
    (hshape : ∀ r ∈ rows, r = nanRow ∨ (r.1 ≠ ⊤ ∧ r.2 ≠ ⊤)) :
    ((∃ r ∈ rows, r = nanRow) →
      ∃ idxs pos, enumerateNodes rows = .ok (idxs, pos)
        ∧ pos.Nodup
        ∧ (∀ r ∈ pos, r.1 ≠ ⊤ ∧ r ∈ rows)
        ∧ (∀ (k : ℕ) (r : NodeRow), rows[k]? = some r →
            (r = nanRow → idxs[k]? = some (-1))
            ∧ (r ≠ nanRow → ∃ m : ℕ, idxs[k]? = some (m : ℤ)
                ∧ pos[m]? = some r)))
    ∧ ((∀ r ∈ rows, r = nanRow) → rows ≠ [] →
        enumerateNodes rows = .ok (rows.map fun _ => -1, []))
    ∧ ((∀ r ∈ rows, r.1 ≠ ⊤) → ∃ e, enumerateNodes rows = .error e) := by
  refine ⟨fun hnan => ?_, fun hall hne => ?_, fun hfin => ?_⟩
  · obtain ⟨r0, hr0m, hr0⟩ := hnan
    have hmem : nanRow ∈ uniqueRows rows := mem_uniqueRows.mpr (hr0 ▸ hr0m)
    obtain ⟨nanIdx, hfind⟩ :
        ∃ i, (uniqueRows rows).findIdx? (fun r => decide (r.1 = ⊤)) = some i := by
      cases hcase : (uniqueRows rows).findIdx? (fun r => decide (r.1 = ⊤)) with
      | none =>
        rw [List.findIdx?_eq_none_iff] at hcase
        have := hcase nanRow hmem
        simp [nanRow] at this
      | some i => exact ⟨i, rfl⟩
    obtain ⟨hlt, hpi, hmin⟩ := List.findIdx?_eq_some_iff_getElem.mp hfind
    have hnanElem : (uniqueRows rows)[nanIdx] = nanRow := by
      have hm : (uniqueRows rows)[nanIdx] ∈ rows :=
        mem_uniqueRows.mp (List.getElem_mem hlt)
      rcases hshape _ hm with h | ⟨h1, _⟩
      · exact h
      · exact absurd (of_decide_eq_true hpi) h1
    have hsort := sorted_uniqueRows rows
    rw [List.Sorted, List.pairwise_iff_getElem] at hsort
    refine ⟨(rows.map fun r => ((uniqueRows rows).indexOf r : ℤ)).map
        (fun ix => if (nanIdx : ℤ) ≤ ix then -1 else ix),
      (uniqueRows rows).take nanIdx, ?_, ?_, ?_, ?_⟩
    · unfold enumerateNodes
      rw [hfind]
    · exact (List.take_sublist _ _).nodup (nodup_uniqueRows rows)
    · intro r hr
      obtain ⟨j, hj, hjr⟩ := List.mem_iff_getElem.mp hr
      have hjnan : j < nanIdx := by
        have hj' := hj
        rw [List.length_take] at hj'
        exact lt_of_lt_of_le hj' (min_le_left _ _)
      have hjl : j < (uniqueRows rows).length := lt_of_lt_of_le hjnan hlt.le
      have hq : (uniqueRows rows)[j]? = some r := by
        rw [← List.getElem?_take_of_lt hjnan, List.getElem?_eq_getElem hj, hjr]
      have hval : (uniqueRows rows)[j] = r := (List.getElem?_eq_some.mp hq).2
      constructor
      · intro htop
        have hm := hmin j hjnan
        rw [hval, htop] at hm
        simp at hm
      · exact mem_uniqueRows.mp (hval ▸ List.getElem_mem hjl)
    · intro k r hk
      have hrm : r ∈ rows := by
        obtain ⟨hkl, hke⟩ := List.getElem?_eq_some.mp hk
        exact hke ▸ List.getElem_mem hkl
      obtain ⟨hp, hpq⟩ := indexOf_spec (mem_uniqueRows.mpr hrm)
      have hpval : (uniqueRows rows)[(uniqueRows rows).indexOf r] = r :=
        (List.getElem?_eq_some.mp hpq).2
      have hidx : ((rows.map fun r => ((uniqueRows rows).indexOf r : ℤ)).map
          (fun ix => if (nanIdx : ℤ) ≤ ix then -1 else ix))[k]?
          = some (if (nanIdx : ℤ) ≤ ((uniqueRows rows).indexOf r : ℤ) then -1
              else ((uniqueRows rows).indexOf r : ℤ)) := by
        rw [List.getElem?_map, List.getElem?_map, hk]
        rfl
      constructor
      · intro hrnan
        rw [hidx, if_pos]
        have hnlt : ¬ (uniqueRows rows).indexOf r < nanIdx := by
          intro hlt'
          have hm := hmin _ hlt'
          rw [hpval, hrnan] at hm
          simp [nanRow] at hm
        exact_mod_cast not_lt.mp hnlt
      · intro hrfin
        have hfin1 : r.1 ≠ ⊤ := by
          rcases hshape r hrm with h | ⟨h1, _⟩
          · exact absurd h hrfin
          · exact h1
        have hplt : (uniqueRows rows).indexOf r < nanIdx := by
          rcases lt_trichotomy ((uniqueRows rows).indexOf r) nanIdx with h | h | h
          · exact h
          · exfalso
            apply hrfin
            have hq2 : (uniqueRows rows)[nanIdx]? = some r := by
              rw [← h]
              exact hpq
            rw [List.getElem?_eq_getElem hlt, hnanElem] at hq2
            exact (Option.some.injEq _ _ ▸ hq2).symm
          · exfalso
            have hrel := hsort nanIdx ((uniqueRows rows).indexOf r) hlt hp h
            rw [hnanElem, hpval] at hrel
            rcases hrel with hlt2 | ⟨heq, _⟩
            · exact absurd hlt2 not_top_lt
            · exact hfin1 heq.symm
        refine ⟨(uniqueRows rows).indexOf r, ?_, ?_⟩
        · rw [hidx, if_neg]
          exact_mod_cast not_le.mpr hplt
        · rw [List.getElem?_take_of_lt hplt]
          exact hpq
  · have hded : rows.dedup = [nanRow] := dedup_const nanRow rows hne hall
    have huniq : uniqueRows rows = [nanRow] := by
      unfold uniqueRows
      rw [hded]
      rfl
    unfold enumerateNodes
    rw [huniq]
    have hfind : ([nanRow].findIdx? fun r => decide (r.1 = ⊤)) = some 0 := rfl
    rw [hfind]
    simp only [List.take_zero, List.map_map]
    refine congrArg _ (congrArg (fun l => (l, ([] : List NodeRow))) ?_)
    apply List.map_congr_left
    intro r hr
    have : r = nanRow := hall r hr
    subst this
    simp [List.indexOf_cons_self]
  · have hnone :
        (uniqueRows rows).findIdx? (fun r => decide (r.1 = ⊤)) = none := by
      rw [List.findIdx?_eq_none_iff]
      intro x hx
      simpa using hfin x (mem_uniqueRows.mp hx)
    refine ⟨"IndexError: index 0 is out of bounds for axis 0 with size 0", ?_⟩
    unfold enumerateNodes
    rw [hnone]

/-- C9 witness: a finite-only grid raises; the all-absent single-entry
grid returns `([-1], [])`; a grid with one finite and one absent entry
succeeds. -/
theorem enumerate_nodes_nan_behavior_witness :
    (∃ e, enumerateNodes [((1 : WithTop ℚ), (2 : WithTop ℚ))] = .error e)
    ∧ enumerateNodes [nanRow] = .ok ([-1], [])
    ∧ (∃ idxs pos,
        enumerateNodes [((1 : WithTop ℚ), (2 : WithTop ℚ)), nanRow]
          = .ok (idxs, pos)) := by
  refine ⟨?_, ?_, ?_⟩
  · refine (enumerate_nodes_nan_behavior _ ?_).2.2 ?_
    · intro r hr
      rw [List.mem_singleton.mp hr]
      right
      constructor <;> simp
    · intro r hr
      rw [List.mem_singleton.mp hr]
      simp
  · have h := (enumerate_nodes_nan_behavior [nanRow]
      (fun r hr => Or.inl (List.mem_singleton.mp hr))).2.1
      (fun r hr => List.mem_singleton.mp hr) (by simp)
    simpa using h
  · obtain ⟨idxs, pos, h, -, -, -⟩ :=
      (enumerate_nodes_nan_behavior
        [((1 : WithTop ℚ), (2 : WithTop ℚ)), nanRow]
        (by intro r hr
            rcases List.mem_pair.mp hr with h' | h' <;> rw [h']
            · right
              constructor <;> simp
            · left
              rfl)).1
        ⟨nanRow, by simp, rfl⟩
    exact ⟨idxs, pos, h⟩

/-! ### `enumerate_cells` proofs -/

/-- C8: every cell in the list returned by `enumerate_cells` has all four
corner node indices different from -1 and its two row-paired corners
(west and east) distinct; candidate cells violating either condition were
silently dropped after the 4-corner-tuple dedup — the filter raises
nothing, and the only errors of the function are the raster-resampling
asserts. -/
theorem enumerate_cells_cells_valid (t : Table) (values scales : List Raster)
    (dΦ dΛ : ℤ → ℝ) (cells : List Cell) (ws ss : List ℝ)
    (hok : enumerateCells t values scales dΦ dΛ = .ok (cells, ws, ss)) :
    ∀ c ∈ cells, c.west ≠ -1 ∧ c.east ≠ -1 ∧ c.south ≠ -1 ∧ c.north ≠ -1
      ∧ c.west ≠ c.east := by
  have hcells : cells = (keptCands t).map Cand.toCell := by
    unfold enumerateCells at hok
    cases hv : downsampleAll t values with
    | error e =>
      rw [hv] at hok
      exact absurd hok (by simp)
    | ok vals =>
      cases hs : downsampleAll t scales with
      | error e =>
        rw [hv, hs] at hok
        exact absurd hok (by simp)
      | ok scls =>
        rw [hv, hs] at hok
        simp only [Except.ok.injEq, Prod.mk.injEq] at hok
        exact hok.1.symm
  intro c hc
  rw [hcells] at hc
  obtain ⟨cand, hcand, rfl⟩ := List.mem_map.mp hc
  have hfil := List.of_mem_filter hcand
  simp only [Bool.and_eq_true, Bool.not_eq_true', Bool.or_eq_false_iff,
    beq_eq_false_iff_ne] at hfil
  refine ⟨?_, ?_, ?_, ?_, ?_⟩ <;> simp only [Cand.toCell] <;> tauto

/-- C8 witness: on the 2×2 fully-defined grid with uniform scalar rasters
and unit spacings the cell with corners (west 0, east 1, south 0, north 2)
is returned and satisfies all the validity conditions. -/
theorem enumerate_cells_cells_valid_witness :
    (⟨0, 0, 0, 0, 1, 0, 2⟩ : Cell).west ≠ -1
    ∧ (⟨0, 0, 0, 0, 1, 0, 2⟩ : Cell).east ≠ -1
    ∧ (⟨0, 0, 0, 0, 1, 0, 2⟩ : Cell).south ≠ -1
    ∧ (⟨0, 0, 0, 0, 1, 0, 2⟩ : Cell).north ≠ -1
    ∧ (⟨0, 0, 0, 0, 1, 0, 2⟩ : Cell).west ≠ (⟨0, 0, 0, 0, 1, 0, 2⟩ : Cell).east :=
  enumerate_cells_cells_valid (canonTable 1 2 2) [.scalar 1] [.scalar 1]
    (fun _ => 1) (fun _ => 1) demoCells demoWs demoSs rfl
    ⟨0, 0, 0, 0, 1, 0, 2⟩ (by with_unfolding_all decide)

/-! ### Generic characterizations of the array-update folds -/

lemma find?_unique {α} {p : α → Bool} {x : α} :
    ∀ {L : List α}, x ∈ L → p x = true → (∀ y ∈ L, p y = true → y = x) →
      L.find? p = some x := by
  intro L
  induction L with
  | nil => intro h _ _; simp at h
  | cons a tl ih =>
    intro hm hp hu
    by_cases hpa : p a = true
    · have ha : a = x := hu a (List.mem_cons_self a tl) hpa
      subst ha
      rw [List.find?_cons_of_pos _ hpa]
    · rcases List.mem_cons.mp hm with h' | htl
      · exact absurd (h' ▸ hp) hpa
      · rw [List.find?_cons_of_neg _ (by simpa using hpa)]
        exact ih htl hp fun y hy hpy => hu y (List.mem_cons_of_mem _ hy) hpy

lemma foldl_setAt_char {T : Type} (size : ℕ) (key val : T → ℤ)
    (cond : T → Prop) [DecidablePred cond] :
    ∀ (L : List T) (f0 : ℕ → ℤ) (m : ℕ),
      (L.foldl (fun f x => if cond x then setAt f size (key x) (val x) else f)
          f0) m
        = match L.reverse.find?
            (fun x => decide (cond x) && (wrapIdx size (key x) == m)) with
          | some x => val x
          | none => f0 m := by
  intro L
  induction L with
  | nil => intro f0 m; rfl
  | cons a tl ih =>
    intro f0 m
    rw [List.foldl_cons, ih, List.reverse_cons, List.find?_append]
    cases h : tl.reverse.find?
        (fun x => decide (cond x) && (wrapIdx size (key x) == m)) with
    | some x => rfl
    | none =>
      simp only [Option.none_or]
      by_cases hca : (decide (cond a) && (wrapIdx size (key a) == m)) = true
      · rw [show ([a].find? fun x => decide (cond x) && (wrapIdx size (key x) == m))
            = some a by simp [List.find?, hca]]
        obtain ⟨h1, h2⟩ := Bool.and_eq_true_iff.mp hca
        rw [if_pos (of_decide_eq_true h1)]
        unfold setAt
        rw [if_pos (eq_of_beq h2).symm]
      · have hca' : (decide (cond a) && (wrapIdx size (key a) == m)) = false := by
          simpa using hca
        rw [show ([a].find? fun x => decide (cond x) && (wrapIdx size (key x) == m))
            = none by simp [List.find?, hca']]
        by_cases hc : cond a
        · rw [if_pos hc]
          unfold setAt
          rw [if_neg fun hmk => hca (by simp [hc, hmk])]
        · rw [if_neg hc]

lemma foldl_orAt_char {T : Type} (size : ℕ) (key : T → ℤ) (bval : T → Bool)
    (cond : T → Prop) [DecidablePred cond] :
    ∀ (L : List T) (f0 : ℕ → Bool) (m : ℕ),
      (L.foldl (fun f x => if cond x then orAt f size (key x) (bval x) else f)
          f0) m
        = (f0 m
            || (L.filter fun x =>
                decide (cond x) && (wrapIdx size (key x) == m)).any bval) := by
  intro L
  induction L with
  | nil => intro f0 m; simp
  | cons a tl ih =>
    intro f0 m
    rw [List.foldl_cons, ih]
    by_cases hca : (decide (cond a) && (wrapIdx size (key a) == m)) = true
    · rw [List.filter_cons, if_pos hca]
      obtain ⟨h1, h2⟩ := Bool.and_eq_true_iff.mp hca
      rw [List.any_cons]
      have hstep : (if cond a then orAt f0 size (key a) (bval a) else f0) m
          = (f0 m || bval a) := by
        rw [if_pos (of_decide_eq_true h1)]
        unfold orAt
        rw [if_pos (eq_of_beq h2).symm]
      rw [hstep, Bool.or_assoc]
    · have hca' : (decide (cond a) && (wrapIdx size (key a) == m)) = false := by
        simpa using hca
      have hstep : (if cond a then orAt f0 size (key a) (bval a) else f0) m
          = f0 m := by
        by_cases hc : cond a
        · rw [if_pos hc]
          unfold orAt
          rw [if_neg fun hmk => hca (by simp [hc, hmk])]
        · rw [if_neg hc]
      rw [hstep, List.filter_cons, hca']
      simp

lemma foldl_proj {σ τ α : Type} (proj : σ → τ) (F : σ → α → σ) (G : τ → α → τ)
    (hFG : ∀ s a, proj (F s a) = G (proj s) a) :
    ∀ (L : List α) (s : σ), proj (L.foldl F s) = L.foldl G (proj s) := by
  intro L
  induction L with
  | nil => intro s; rfl
  | cons a tl ih =>
    intro s
    rw [List.foldl_cons, List.foldl_cons, ih, hFG]

/-! ### The canonical fully-defined table -/

lemma mem_triples {t : Table} {x : ℕ × ℕ × ℕ} :
    x ∈ t.triples ↔ x.1 < t.S ∧ x.2.1 < t.R ∧ x.2.2 < t.C := by
  obtain ⟨h, i, j⟩ := x
  unfold Table.triples
  simp only [List.mem_flatMap, List.mem_range, List.mem_map]
  constructor
  · rintro ⟨a, ha, b, hb, c, hc, rfl, rfl, rfl⟩
    exact ⟨ha, hb, hc⟩
  · rintro ⟨ha, hb, hc⟩
    exact ⟨h, ha, i, hb, ⟨j, hc, rfl⟩⟩

lemma canon_idx_lt {S R C h i j : ℕ} (hh : h < S) (hi : i < R) (hj : j < C) :
    (h * R + i) * C + j < S * R * C := by
  have h1 : (h * R + i) * C + j < (h * R + i + 1) * C := by nlinarith
  have h2 : h * R + i + 1 ≤ S * R := by nlinarith
  calc (h * R + i) * C + j < (h * R + i + 1) * C := h1
    _ ≤ S * R * C := Nat.mul_le_mul_right C h2

lemma canon_col_idx {R C : ℕ} (h i : ℕ) {j : ℕ} (hj : j < C) :
    canonCol C ((h * R + i) * C + j) = j := by
  unfold canonCol
  rw [show (h * R + i) * C + j = j + (h * R + i) * C from by ring,
    Nat.add_mul_mod_self_right, Nat.mod_eq_of_lt hj]

lemma canon_row_idx {R C : ℕ} (h : ℕ) {i j : ℕ} (hi : i < R) (hj : j < C) :
    canonRow R C ((h * R + i) * C + j) = i := by
  unfold canonRow
  have hC : 0 < C := by omega
  have hdiv : ((h * R + i) * C + j) / C = h * R + i := by
    rw [mul_comm (h * R + i) C, Nat.mul_add_div hC, Nat.div_eq_of_lt hj]
    omega
  rw [hdiv, show h * R + i = i + h * R from by ring,
    Nat.add_mul_mod_self_right, Nat.mod_eq_of_lt hi]

lemma canon_sec_idx {S R C : ℕ} {h i j : ℕ} (hh : h < S) (hi : i < R)
    (hj : j < C) :
    canonSec R C ((h * R + i) * C + j) = h := by
  unfold canonSec
  have hRC : 0 < R * C := Nat.mul_pos (by omega) (by omega)
  have hrw : (h * R + i) * C + j = R * C * h + (i * C + j) := by ring
  have hlt : i * C + j < R * C := by nlinarith
  rw [hrw, Nat.mul_add_div hRC, Nat.div_eq_of_lt hlt]
  omega

lemma wrapIdx_natCast (size m : ℕ) : wrapIdx size (m : ℤ) = m := by
  unfold wrapIdx
  rw [if_neg (by omega)]
  exact Int.toNat_natCast m

lemma natCast_ne_negOne (m : ℕ) : ((m : ℕ) : ℤ) ≠ -1 := by omega

lemma canon_tab (S R C h i j : ℕ) :
    (canonTable S R C).tab h i j = (((h * R + i) * C + j : ℕ) : ℤ) := rfl

lemma canon_decomp {S R C n : ℕ} (hn : n < S * R * C) :
    canonSec R C n < S ∧ canonRow R C n < R ∧ canonCol C n < C ∧
      (canonSec R C n * R + canonRow R C n) * C + canonCol C n = n := by
  have hC : 0 < C := by
    rcases Nat.eq_zero_or_pos C with h | h
    · subst h
      simp at hn
    · exact h
  have hR : 0 < R := by
    rcases Nat.eq_zero_or_pos R with h | h
    · subst h
      simp at hn
    · exact h
  refine ⟨?_, Nat.mod_lt _ hR, Nat.mod_lt _ hC, ?_⟩
  · unfold canonSec
    rw [Nat.div_lt_iff_lt_mul (Nat.mul_pos hR hC)]
    calc n < S * R * C := hn
      _ = S * (R * C) := by ring
  · unfold canonSec canonRow canonCol
    have h1 : n / (R * C) = n / C / R := by
      rw [Nat.div_div_eq_div_mul, mul_comm]
    rw [h1,
      show n / C / R * R + n / C % R = n / C from by
        rw [mul_comm]
        exact Nat.div_add_mod (n / C) R,
      show n / C * C + n % C = n from by
        rw [mul_comm]
        exact Nat.div_add_mod n C]

lemma init_le_foldl_max : ∀ (l : List ℤ) (a : ℤ), a ≤ l.foldl max a := by
  intro l
  induction l with
  | nil => intro a; exact le_refl a
  | cons y tl ih =>
    intro a
    rw [List.foldl_cons]
    exact le_trans (le_max_left a y) (ih _)

lemma foldl_max_le {b : ℤ} :
    ∀ (l : List ℤ) (a : ℤ), a ≤ b → (∀ x ∈ l, x ≤ b) → l.foldl max a ≤ b := by
  intro l
  induction l with
  | nil => intro a ha _; exact ha
  | cons x tl ih =>
    intro a ha hl
    rw [List.foldl_cons]
    exact ih _ (max_le ha (hl x (by simp))) fun y hy => hl y (by simp [hy])

lemma le_foldl_max {x : ℤ} :
    ∀ (l : List ℤ) (a : ℤ), x ∈ l → x ≤ l.foldl max a := by
  intro l
  induction l with
  | nil => intro a hx; simp at hx
  | cons y tl ih =>
    intro a hx
    rw [List.foldl_cons]
    rcases List.mem_cons.mp hx with rfl | hx'
    · exact le_trans (le_max_right a x) (init_le_foldl_max _ _)
    · exact ih _ hx'

lemma canon_nFull {S R C : ℕ} (hS : 1 ≤ S) (hR : 1 ≤ R) (hC : 1 ≤ C) :
    (canonTable S R C).nFull = S * R * C := by
  have hone : ((S - 1) * R + (R - 1)) * C + (C - 1) + 1 = S * R * C := by
    obtain ⟨s, rfl⟩ : ∃ s, S = s + 1 := ⟨S - 1, by omega⟩
    obtain ⟨r, rfl⟩ : ∃ r, R = r + 1 := ⟨R - 1, by omega⟩
    obtain ⟨c, rfl⟩ : ∃ c, C = c + 1 := ⟨C - 1, by omega⟩
    simp only [Nat.add_sub_cancel]
    ring
  have h1 : 1 ≤ S * R * C := by
    calc 1 = 1 * 1 * 1 := by ring
      _ ≤ S * R * C := Nat.mul_le_mul (Nat.mul_le_mul hS hR) hC
  unfold Table.nFull Table.nFullZ
  have hfold : (((canonTable S R C).triples.map fun hij =>
      (canonTable S R C).tab hij.1 hij.2.1 hij.2.2).foldl max (-1))
      = ((S * R * C : ℕ) : ℤ) - 1 := by
    apply le_antisymm
    · apply foldl_max_le
      · omega
      · intro x hx
        obtain ⟨hij, hmem', rfl⟩ := List.mem_map.mp hx
        obtain ⟨hh, hi, hj⟩ := mem_triples.mp hmem'
        have hh' : hij.1 < S := hh
        have hi' : hij.2.1 < R := hi
        have hj' : hij.2.2 < C := hj
        have hlt := canon_idx_lt hh' hi' hj'
        rw [canon_tab]
        omega
    · apply le_foldl_max
      apply List.mem_map.mpr
      refine ⟨(S - 1, R - 1, C - 1),
        mem_triples.mpr ⟨show S - 1 < S by omega, show R - 1 < R by omega,
          show C - 1 < C by omega⟩, ?_⟩
      rw [canon_tab,
        show ((S - 1) * R + (R - 1)) * C + (C - 1) = S * R * C - 1 from by omega]
      omega
  rw [hfold]
  omega

/-! ### Neighbor arrays of the canonical table -/

lemma canon_east {S R C : ℕ} {n : ℕ} (hn : n < S * R * C) :
    (buildNeighbors (canonTable S R C)).east n
      = if canonCol C n + 1 < C then ((n : ℤ) + 1) else -1 := by
  obtain ⟨hsec, hrow, hcol, hidx⟩ := canon_decomp hn
  have hproj : (buildNeighbors (canonTable S R C)).east
      = (canonTable S R C).triples.foldl
          (fun f x => if (canonTable S R C).tab x.1 x.2.1 x.2.2 ≠ -1
              ∧ (x.2.2 + 1 < (canonTable S R C).C
                ∧ (canonTable S R C).tab x.1 x.2.1 (x.2.2 + 1) ≠ -1)
            then setAt f (canonTable S R C).nFull
                ((canonTable S R C).tab x.1 x.2.1 x.2.2)
                ((canonTable S R C).tab x.1 x.2.1 (x.2.2 + 1))
            else f)
          (fun _ => -1) := by
    unfold buildNeighbors
    refine foldl_proj Neighbors.east _ _ (fun nb a => ?_) _ _
    dsimp only
    split_ifs <;> first | rfl | tauto
  rw [hproj, foldl_setAt_char]
  by_cases hcc : canonCol C n + 1 < C
  · rw [if_pos hcc]
    have hfind : ((canonTable S R C).triples.reverse.find? fun x =>
        decide ((canonTable S R C).tab x.1 x.2.1 x.2.2 ≠ -1
          ∧ (x.2.2 + 1 < (canonTable S R C).C
            ∧ (canonTable S R C).tab x.1 x.2.1 (x.2.2 + 1) ≠ -1))
        && (wrapIdx (canonTable S R C).nFull
              ((canonTable S R C).tab x.1 x.2.1 x.2.2) == n))
        = some (canonSec R C n, canonRow R C n, canonCol C n) := by
      apply find?_unique
      · rw [List.mem_reverse]
        exact mem_triples.mpr ⟨hsec, hrow, hcol⟩
      · rw [Bool.and_eq_true_iff]
        constructor
        · rw [decide_eq_true_iff]
          exact ⟨natCast_ne_negOne _, hcc, natCast_ne_negOne _⟩
        · rw [canon_tab, hidx, wrapIdx_natCast]
          exact beq_self_eq_true n
      · intro y hym hpy
        rw [List.mem_reverse] at hym
        obtain ⟨hy1t, hy2t, hy3t⟩ := mem_triples.mp hym
        have hy1 : y.1 < S := hy1t
        have hy2 : y.2.1 < R := hy2t
        have hy3 : y.2.2 < C := hy3t
        rw [Bool.and_eq_true_iff] at hpy
        obtain ⟨-, h2⟩ := hpy
        rw [canon_tab, wrapIdx_natCast] at h2
        have heq : (y.1 * R + y.2.1) * C + y.2.2 = n := eq_of_beq h2
        have e1 : canonSec R C n = y.1 := by rw [← heq]; exact canon_sec_idx hy1 hy2 hy3
        have e2 : canonRow R C n = y.2.1 := by rw [← heq]; exact canon_row_idx _ hy2 hy3
        have e3 : canonCol C n = y.2.2 := by rw [← heq]; exact canon_col_idx _ _ hy3
        obtain ⟨ya, yb, yc⟩ := y
        simp only [Prod.mk.injEq]
        exact ⟨e1.symm, e2.symm, e3.symm⟩
    rw [hfind]
    show (canonTable S R C).tab (canonSec R C n) (canonRow R C n)
        (canonCol C n + 1) = (n : ℤ) + 1
    rw [canon_tab]
    have heq1 : (canonSec R C n * R + canonRow R C n) * C + (canonCol C n + 1)
        = n + 1 := by omega
    rw [heq1]
    push_cast
    ring
  · rw [if_neg hcc]
    have hfind : ((canonTable S R C).triples.reverse.find? fun x =>
        decide ((canonTable S R C).tab x.1 x.2.1 x.2.2 ≠ -1
          ∧ (x.2.2 + 1 < (canonTable S R C).C
            ∧ (canonTable S R C).tab x.1 x.2.1 (x.2.2 + 1) ≠ -1))
        && (wrapIdx (canonTable S R C).nFull
              ((canonTable S R C).tab x.1 x.2.1 x.2.2) == n))
        = none := by
      rw [List.find?_eq_none]
      intro y hy
      rw [List.mem_reverse] at hy
      obtain ⟨hy1, hy2, hy3⟩ := mem_triples.mp hy
      intro hpy
      rw [Bool.and_eq_true_iff] at hpy
      obtain ⟨h1, h2⟩ := hpy
      rw [decide_eq_true_iff] at h1
      rw [canon_tab, wrapIdx_natCast] at h2
      have heq : (y.1 * R + y.2.1) * C + y.2.2 = n := eq_of_beq h2
      have e3 : canonCol C n = y.2.2 := by
        rw [← heq]
        exact canon_col_idx _ _ hy3
      exact hcc (by rw [e3]; exact h1.2.1)
    rw [hfind]

lemma canon_west {S R C : ℕ} {n : ℕ} (hn : n < S * R * C) :
    (buildNeighbors (canonTable S R C)).west n
      = if 1 ≤ canonCol C n then ((n : ℤ) - 1) else -1 := by
  obtain ⟨hsec, hrow, hcol, hidx⟩ := canon_decomp hn
  have hproj : (buildNeighbors (canonTable S R C)).west
      = (canonTable S R C).triples.foldl
          (fun f x => if (canonTable S R C).tab x.1 x.2.1 x.2.2 ≠ -1
              ∧ (1 ≤ x.2.2
                ∧ (canonTable S R C).tab x.1 x.2.1 (x.2.2 - 1) ≠ -1)
            then setAt f (canonTable S R C).nFull
                ((canonTable S R C).tab x.1 x.2.1 x.2.2)
                ((canonTable S R C).tab x.1 x.2.1 (x.2.2 - 1))
            else f)
          (fun _ => -1) := by
    unfold buildNeighbors
    refine foldl_proj Neighbors.west _ _ (fun nb a => ?_) _ _
    dsimp only
    split_ifs <;> first | rfl | tauto
  rw [hproj, foldl_setAt_char]
  by_cases hcc : 1 ≤ canonCol C n
  · rw [if_pos hcc]
    have hfind : ((canonTable S R C).triples.reverse.find? fun x =>
        decide ((canonTable S R C).tab x.1 x.2.1 x.2.2 ≠ -1
          ∧ (1 ≤ x.2.2
            ∧ (canonTable S R C).tab x.1 x.2.1 (x.2.2 - 1) ≠ -1))
        && (wrapIdx (canonTable S R C).nFull
              ((canonTable S R C).tab x.1 x.2.1 x.2.2) == n))
        = some (canonSec R C n, canonRow R C n, canonCol C n) := by
      apply find?_unique
      · rw [List.mem_reverse]
        exact mem_triples.mpr ⟨hsec, hrow, hcol⟩
      · rw [Bool.and_eq_true_iff]
        constructor
        · rw [decide_eq_true_iff]
          exact ⟨natCast_ne_negOne _, hcc, natCast_ne_negOne _⟩
        · rw [canon_tab, hidx, wrapIdx_natCast]
          exact beq_self_eq_true n
      · intro y hym hpy
        rw [List.mem_reverse] at hym
        obtain ⟨hy1t, hy2t, hy3t⟩ := mem_triples.mp hym
        have hy1 : y.1 < S := hy1t
        have hy2 : y.2.1 < R := hy2t
        have hy3 : y.2.2 < C := hy3t
        rw [Bool.and_eq_true_iff] at hpy
        obtain ⟨-, h2⟩ := hpy
        rw [canon_tab, wrapIdx_natCast] at h2
        have heq : (y.1 * R + y.2.1) * C + y.2.2 = n := eq_of_beq h2
        have e1 : canonSec R C n = y.1 := by rw [← heq]; exact canon_sec_idx hy1 hy2 hy3
        have e2 : canonRow R C n = y.2.1 := by rw [← heq]; exact canon_row_idx _ hy2 hy3
        have e3 : canonCol C n = y.2.2 := by rw [← heq]; exact canon_col_idx _ _ hy3
        obtain ⟨ya, yb, yc⟩ := y
        simp only [Prod.mk.injEq]
        exact ⟨e1.symm, e2.symm, e3.symm⟩
    rw [hfind]
    show (canonTable S R C).tab (canonSec R C n) (canonRow R C n)
        (canonCol C n - 1) = (n : ℤ) - 1
    rw [canon_tab]
    have heq1 : (canonSec R C n * R + canonRow R C n) * C + (canonCol C n - 1)
        = n - 1 := by omega
    rw [heq1]
    have hn1 : 1 ≤ n := by omega
    omega
  · rw [if_neg hcc]
    have hfind : ((canonTable S R C).triples.reverse.find? fun x =>
        decide ((canonTable S R C).tab x.1 x.2.1 x.2.2 ≠ -1
          ∧ (1 ≤ x.2.2
            ∧ (canonTable S R C).tab x.1 x.2.1 (x.2.2 - 1) ≠ -1))
        && (wrapIdx (canonTable S R C).nFull
              ((canonTable S R C).tab x.1 x.2.1 x.2.2) == n))
        = none := by
      rw [List.find?_eq_none]
      intro y hy
      rw [List.mem_reverse] at hy
      obtain ⟨hy1, hy2, hy3⟩ := mem_triples.mp hy
      intro hpy
      rw [Bool.and_eq_true_iff] at hpy
      obtain ⟨h1, h2⟩ := hpy
      rw [decide_eq_true_iff] at h1
      rw [canon_tab, wrapIdx_natCast] at h2
      have heq : (y.1 * R + y.2.1) * C + y.2.2 = n := eq_of_beq h2
      have e3 : canonCol C n = y.2.2 := by
        rw [← heq]
        exact canon_col_idx _ _ hy3
      exact hcc (by rw [e3]; exact h1.2.1)
    rw [hfind]

lemma canon_north {S R C : ℕ} {n : ℕ} (hn : n < S * R * C) :
    (buildNeighbors (canonTable S R C)).north n
      = if canonRow R C n + 1 < R then ((n : ℤ) + C) else -1 := by
  obtain ⟨hsec, hrow, hcol, hidx⟩ := canon_decomp hn
  have hproj : (buildNeighbors (canonTable S R C)).north
      = (canonTable S R C).triples.foldl
          (fun f x => if (canonTable S R C).tab x.1 x.2.1 x.2.2 ≠ -1
              ∧ (x.2.1 + 1 < (canonTable S R C).R
                ∧ (canonTable S R C).tab x.1 (x.2.1 + 1) x.2.2 ≠ -1)
            then setAt f (canonTable S R C).nFull
                ((canonTable S R C).tab x.1 x.2.1 x.2.2)
                ((canonTable S R C).tab x.1 (x.2.1 + 1) x.2.2)
            else f)
          (fun _ => -1) := by
    unfold buildNeighbors
    refine foldl_proj Neighbors.north _ _ (fun nb a => ?_) _ _
    dsimp only
    split_ifs <;> first | rfl | tauto
  rw [hproj, foldl_setAt_char]
  by_cases hcc : canonRow R C n + 1 < R
  · rw [if_pos hcc]
    have hfind : ((canonTable S R C).triples.reverse.find? fun x =>
        decide ((canonTable S R C).tab x.1 x.2.1 x.2.2 ≠ -1
          ∧ (x.2.1 + 1 < (canonTable S R C).R
            ∧ (canonTable S R C).tab x.1 (x.2.1 + 1) x.2.2 ≠ -1))
        && (wrapIdx (canonTable S R C).nFull
              ((canonTable S R C).tab x.1 x.2.1 x.2.2) == n))
        = some (canonSec R C n, canonRow R C n, canonCol C n) := by
      apply find?_unique
      · rw [List.mem_reverse]
        exact mem_triples.mpr ⟨hsec, hrow, hcol⟩
      · rw [Bool.and_eq_true_iff]
        constructor
        · rw [decide_eq_true_iff]
          exact ⟨natCast_ne_negOne _, hcc, natCast_ne_negOne _⟩
        · rw [canon_tab, hidx, wrapIdx_natCast]
          exact beq_self_eq_true n
      · intro y hym hpy
        rw [List.mem_reverse] at hym
        obtain ⟨hy1t, hy2t, hy3t⟩ := mem_triples.mp hym
        have hy1 : y.1 < S := hy1t
        have hy2 : y.2.1 < R := hy2t
        have hy3 : y.2.2 < C := hy3t
        rw [Bool.and_eq_true_iff] at hpy
        obtain ⟨-, h2⟩ := hpy
        rw [canon_tab, wrapIdx_natCast] at h2
        have heq : (y.1 * R + y.2.1) * C + y.2.2 = n := eq_of_beq h2
        have e1 : canonSec R C n = y.1 := by rw [← heq]; exact canon_sec_idx hy1 hy2 hy3
        have e2 : canonRow R C n = y.2.1 := by rw [← heq]; exact canon_row_idx _ hy2 hy3
        have e3 : canonCol C n = y.2.2 := by rw [← heq]; exact canon_col_idx _ _ hy3
        obtain ⟨ya, yb, yc⟩ := y
        simp only [Prod.mk.injEq]
        exact ⟨e1.symm, e2.symm, e3.symm⟩
    rw [hfind]
    show (canonTable S R C).tab (canonSec R C n) (canonRow R C n + 1)
        (canonCol C n) = (n : ℤ) + C
    rw [canon_tab]
    have heq1 : (canonSec R C n * R + (canonRow R C n + 1)) * C + canonCol C n
        = n + C := by
      have hring : (canonSec R C n * R + (canonRow R C n + 1)) * C
          = (canonSec R C n * R + canonRow R C n) * C + C := by ring
      omega
    rw [heq1]
    push_cast
    ring
  · rw [if_neg hcc]
    have hfind : ((canonTable S R C).triples.reverse.find? fun x =>
        decide ((canonTable S R C).tab x.1 x.2.1 x.2.2 ≠ -1
          ∧ (x.2.1 + 1 < (canonTable S R C).R
            ∧ (canonTable S R C).tab x.1 (x.2.1 + 1) x.2.2 ≠ -1))
        && (wrapIdx (canonTable S R C).nFull
              ((canonTable S R C).tab x.1 x.2.1 x.2.2) == n))
        = none := by
      rw [List.find?_eq_none]
      intro y hy
      rw [List.mem_reverse] at hy
      obtain ⟨hy1, hy2, hy3⟩ := mem_triples.mp hy
      intro hpy
      rw [Bool.and_eq_true_iff] at hpy
      obtain ⟨h1, h2⟩ := hpy
      rw [decide_eq_true_iff] at h1
      rw [canon_tab, wrapIdx_natCast] at h2
      have heq : (y.1 * R + y.2.1) * C + y.2.2 = n := eq_of_beq h2
      have e2 : canonRow R C n = y.2.1 := by
        rw [← heq]
        exact canon_row_idx _ hy2 hy3
      exact hcc (by rw [e2]; exact h1.2.1)
    rw [hfind]

lemma canon_south {S R C : ℕ} {n : ℕ} (hn : n < S * R * C) :
    (buildNeighbors (canonTable S R C)).south n
      = if 1 ≤ canonRow R C n then ((n : ℤ) - C) else -1 := by
  obtain ⟨hsec, hrow, hcol, hidx⟩ := canon_decomp hn
  have hproj : (buildNeighbors (canonTable S R C)).south
      = (canonTable S R C).triples.foldl
          (fun f x => if (canonTable S R C).tab x.1 x.2.1 x.2.2 ≠ -1
              ∧ (1 ≤ x.2.1
                ∧ (canonTable S R C).tab x.1 (x.2.1 - 1) x.2.2 ≠ -1)
            then setAt f (canonTable S R C).nFull
                ((canonTable S R C).tab x.1 x.2.1 x.2.2)
                ((canonTable S R C).tab x.1 (x.2.1 - 1) x.2.2)
            else f)
          (fun _ => -1) := by
    unfold buildNeighbors
    refine foldl_proj Neighbors.south _ _ (fun nb a => ?_) _ _
    dsimp only
    split_ifs <;> first | rfl | tauto
  rw [hproj, foldl_setAt_char]
  by_cases hcc : 1 ≤ canonRow R C n
  · rw [if_pos hcc]
    have hfind : ((canonTable S R C).triples.reverse.find? fun x =>
        decide ((canonTable S R C).tab x.1 x.2.1 x.2.2 ≠ -1
          ∧ (1 ≤ x.2.1
            ∧ (canonTable S R C).tab x.1 (x.2.1 - 1) x.2.2 ≠ -1))
        && (wrapIdx (canonTable S R C).nFull
              ((canonTable S R C).tab x.1 x.2.1 x.2.2) == n))
        = some (canonSec R C n, canonRow R C n, canonCol C n) := by
      apply find?_unique
      · rw [List.mem_reverse]
        exact mem_triples.mpr ⟨hsec, hrow, hcol⟩
      · rw [Bool.and_eq_true_iff]
        constructor
        · rw [decide_eq_true_iff]
          exact ⟨natCast_ne_negOne _, hcc, natCast_ne_negOne _⟩
        · rw [canon_tab, hidx, wrapIdx_natCast]
          exact beq_self_eq_true n
      · intro y hym hpy
        rw [List.mem_reverse] at hym
        obtain ⟨hy1t, hy2t, hy3t⟩ := mem_triples.mp hym
        have hy1 : y.1 < S := hy1t
        have hy2 : y.2.1 < R := hy2t
        have hy3 : y.2.2 < C := hy3t
        rw [Bool.and_eq_true_iff] at hpy
        obtain ⟨-, h2⟩ := hpy
        rw [canon_tab, wrapIdx_natCast] at h2
        have heq : (y.1 * R + y.2.1) * C + y.2.2 = n := eq_of_beq h2
        have e1 : canonSec R C n = y.1 := by rw [← heq]; exact canon_sec_idx hy1 hy2 hy3
        have e2 : canonRow R C n = y.2.1 := by rw [← heq]; exact canon_row_idx _ hy2 hy3
        have e3 : canonCol C n = y.2.2 := by rw [← heq]; exact canon_col_idx _ _ hy3
        obtain ⟨ya, yb, yc⟩ := y
        simp only [Prod.mk.injEq]
        exact ⟨e1.symm, e2.symm, e3.symm⟩
    rw [hfind]
    show (canonTable S R C).tab (canonSec R C n) (canonRow R C n - 1)
        (canonCol C n) = (n : ℤ) - C
    rw [canon_tab]
    obtain ⟨r', hr'⟩ : ∃ r', canonRow R C n = r' + 1 := ⟨canonRow R C n - 1, by omega⟩
    have heq1 : (canonSec R C n * R + (canonRow R C n - 1)) * C + canonCol C n
        = n - C ∧ C ≤ n := by
      rw [hr'] at hidx ⊢
      have hring : (canonSec R C n * R + (r' + 1)) * C
          = (canonSec R C n * R + r') * C + C := by ring
      simp only [Nat.add_sub_cancel]
      omega
    rw [heq1.1]
    have := heq1.2
    omega
  · rw [if_neg hcc]
    have hfind : ((canonTable S R C).triples.reverse.find? fun x =>
        decide ((canonTable S R C).tab x.1 x.2.1 x.2.2 ≠ -1
          ∧ (1 ≤ x.2.1
            ∧ (canonTable S R C).tab x.1 (x.2.1 - 1) x.2.2 ≠ -1))
        && (wrapIdx (canonTable S R C).nFull
              ((canonTable S R C).tab x.1 x.2.1 x.2.2) == n))
        = none := by
      rw [List.find?_eq_none]
      intro y hy
      rw [List.mem_reverse] at hy
      obtain ⟨hy1, hy2, hy3⟩ := mem_triples.mp hy
      intro hpy
      rw [Bool.and_eq_true_iff] at hpy
      obtain ⟨h1, h2⟩ := hpy
      rw [decide_eq_true_iff] at h1
      rw [canon_tab, wrapIdx_natCast] at h2
      have heq : (y.1 * R + y.2.1) * C + y.2.2 = n := eq_of_beq h2
      have e2 : canonRow R C n = y.2.1 := by
        rw [← heq]
        exact canon_row_idx _ hy2 hy3
      exact hcc (by rw [e2]; exact h1.2.1)
    rw [hfind]

lemma canon_filter_any {S R C : ℕ} {m : ℕ} (hm : m < S * R * C)
    (size : ℕ) (bval : ℕ × ℕ × ℕ → Bool) :
    ((canonTable S R C).triples.filter (fun x =>
        decide ((canonTable S R C).tab x.1 x.2.1 x.2.2 ≠ -1)
        && (wrapIdx size ((canonTable S R C).tab x.1 x.2.1 x.2.2) == m))).any
        bval
      = bval (canonSec R C m, canonRow R C m, canonCol C m) := by
  obtain ⟨hsec, hrow, hcol, hidx⟩ := canon_decomp hm
  by_cases hb : bval (canonSec R C m, canonRow R C m, canonCol C m) = true
  · rw [hb, List.any_eq_true]
    refine ⟨(canonSec R C m, canonRow R C m, canonCol C m), ?_, hb⟩
    rw [List.mem_filter]
    refine ⟨mem_triples.mpr ⟨hsec, hrow, hcol⟩, ?_⟩
    rw [Bool.and_eq_true_iff]
    constructor
    · rw [decide_eq_true_iff]
      exact natCast_ne_negOne _
    · rw [canon_tab, hidx, wrapIdx_natCast]
      exact beq_self_eq_true m
  · rw [Bool.not_eq_true] at hb
    rw [hb, List.any_eq_false]
    intro x hx
    rw [List.mem_filter] at hx
    obtain ⟨hxm, hxp⟩ := hx
    obtain ⟨hx1, hx2, hx3⟩ := mem_triples.mp hxm
    rw [Bool.and_eq_true_iff] at hxp
    obtain ⟨-, h2⟩ := hxp
    rw [canon_tab, wrapIdx_natCast] at h2
    have heq : (x.1 * R + x.2.1) * C + x.2.2 = m := eq_of_beq h2
    have e1 : canonSec R C m = x.1 := by rw [← heq]; exact canon_sec_idx hx1 hx2 hx3
    have e2 : canonRow R C m = x.2.1 := by rw [← heq]; exact canon_row_idx _ hx2 hx3
    have e3 : canonCol C m = x.2.2 := by rw [← heq]; exact canon_col_idx _ _ hx3
    rw [Bool.not_eq_true]
    have hxeq : x = (canonSec R C m, canonRow R C m, canonCol C m) := by
      obtain ⟨xa, xb, xc⟩ := x
      simp only [Prod.mk.injEq]
      exact ⟨e1.symm, e2.symm, e3.symm⟩
    rw [hxeq]
    exact hb

lemma canon_filter_empty {S R C : ℕ} {m : ℕ} (hm : S * R * C ≤ m)
    (size : ℕ) :
    ((canonTable S R C).triples.filter (fun x =>
        decide ((canonTable S R C).tab x.1 x.2.1 x.2.2 ≠ -1)
        && (wrapIdx size ((canonTable S R C).tab x.1 x.2.1 x.2.2) == m)))
      = [] := by
  rw [List.filter_eq_nil_iff]
  intro x hx
  obtain ⟨hx1t, hx2t, hx3t⟩ := mem_triples.mp hx
  have hx1 : x.1 < S := hx1t
  have hx2 : x.2.1 < R := hx2t
  have hx3 : x.2.2 < C := hx3t
  intro hxp
  rw [Bool.and_eq_true_iff] at hxp
  obtain ⟨-, h2⟩ := hxp
  rw [canon_tab, wrapIdx_natCast] at h2
  have heq : (x.1 * R + x.2.1) * C + x.2.2 = m := eq_of_beq h2
  have := canon_idx_lt hx1 hx2 hx3
  omega

lemma canon_hdn0 {S R C : ℕ} (factor : ℕ) (ewf : ℕ → ℤ) (m : ℕ) :
    (rawFlags (canonTable S R C) factor ewf).1 m
      = if m < S * R * C then importantRow R factor (canonRow R C m)
        else false := by
  have hproj : (rawFlags (canonTable S R C) factor ewf).1
      = (canonTable S R C).triples.foldl
          (fun f x => if (canonTable S R C).tab x.1 x.2.1 x.2.2 ≠ -1
            then orAt f ((canonTable S R C).nFull + 1)
                ((canonTable S R C).tab x.1 x.2.1 x.2.2)
                (importantRow (canonTable S R C).R factor x.2.1)
            else f)
          (fun _ => false) := by
    unfold rawFlags
    refine foldl_proj Prod.fst _ _ (fun s a => ?_) _ _
    dsimp only
    split_ifs <;> rfl
  rw [hproj, foldl_orAt_char]
  by_cases hm : m < S * R * C
  · rw [if_pos hm, Bool.false_or, canon_filter_any hm]
    rfl
  · rw [if_neg hm, Bool.false_or, canon_filter_empty (by omega), List.any_nil]

lemma canon_isd0 {S R C : ℕ} (factor : ℕ) (ewf : ℕ → ℤ) (m : ℕ) :
    (rawFlags (canonTable S R C) factor ewf).2 m
      = if m < S * R * C
        then (Int.fmod ((canonCol C m : ℕ) : ℤ) (ewf (canonRow R C m)) == 0)
        else false := by
  have hproj : (rawFlags (canonTable S R C) factor ewf).2
      = (canonTable S R C).triples.foldl
          (fun f x => if (canonTable S R C).tab x.1 x.2.1 x.2.2 ≠ -1
            then orAt f (canonTable S R C).nFull
                ((canonTable S R C).tab x.1 x.2.1 x.2.2)
                (Int.fmod ((x.2.2 : ℕ) : ℤ) (ewf x.2.1) == 0)
            else f)
          (fun _ => false) := by
    unfold rawFlags
    refine foldl_proj Prod.snd _ _ (fun s a => ?_) _ _
    dsimp only
    split_ifs <;> rfl
  rw [hproj, foldl_orAt_char]
  by_cases hm : m < S * R * C
  · rw [if_pos hm, Bool.false_or, canon_filter_any hm]
  · rw [if_neg hm, Bool.false_or, canon_filter_empty (by omega), List.any_nil]

lemma canon_hdn {S R C : ℕ} (hS : 1 ≤ S) (hR : 1 ≤ R) (hC : 1 ≤ C)
    (factor : ℕ) (ewf : ℕ → ℤ) (m : ℕ) :
    hdnOf (canonTable S R C) factor ewf m
      = if m < S * R * C then rowHdn R factor (canonRow R C m) else false := by
  have hN := canon_nFull hS hR hC
  unfold hdnOf
  rw [hN]
  by_cases hm : m < S * R * C
  · rw [if_pos hm, if_pos hm]
    have hrowlt : canonRow R C m < R := (canon_decomp hm).2.1
    have hrn : ((buildNeighbors (canonTable S R C)).north m == -1)
        = decide (canonRow R C m + 1 = R) := by
      rw [canon_north (S := S) hm]
      by_cases h1 : canonRow R C m + 1 < R
      · rw [if_pos h1]
        have l : (((m : ℤ) + (C : ℤ)) == (-1 : ℤ)) = false :=
          beq_eq_false_iff_ne.mpr (by omega)
        have r : decide (canonRow R C m + 1 = R) = false :=
          decide_eq_false (by omega)
        rw [l, r]
      · rw [if_neg h1]
        have r : decide (canonRow R C m + 1 = R) = true :=
          decide_eq_true (by omega)
        rw [r, beq_self_eq_true]
    have hsn : ((buildNeighbors (canonTable S R C)).south m == -1)
        = decide (canonRow R C m = 0) := by
      rw [canon_south (S := S) hm]
      by_cases h0 : 1 ≤ canonRow R C m
      · rw [if_pos h0]
        have hCle : C ≤ m := by
          by_contra hlt
          have h0' : m / C = 0 := Nat.div_eq_of_lt (by omega)
          have hcr : canonRow R C m = 0 := by
            unfold canonRow
            rw [h0']
            simp
          omega
        have l : (((m : ℤ) - (C : ℤ)) == (-1 : ℤ)) = false :=
          beq_eq_false_iff_ne.mpr (by omega)
        have r : decide (canonRow R C m = 0) = false :=
          decide_eq_false (by omega)
        rw [l, r]
      · rw [if_neg h0]
        have r : decide (canonRow R C m = 0) = true :=
          decide_eq_true (by omega)
        rw [r, beq_self_eq_true]
    rw [hrn, hsn, canon_hdn0, if_pos hm]
    rfl
  · rw [if_neg hm, if_neg hm, canon_hdn0, if_neg hm]

lemma followGraph_zero (prog : ℤ → ℤ) (untl : ℤ → Bool) (st : List ℤ)
    (d : List ℕ) :
    followGraph prog untl 0 st d
      = if st.all (fun s => untl s) then .ok (some (st, d))
        else if st.any (fun s => !untl s && (prog s == s)) then
          .error "this importance graff was about to cause an infinite loop."
        else .ok none := rfl

lemma followGraph_succ (prog : ℤ → ℤ) (untl : ℤ → Bool) (fuel : ℕ)
    (st : List ℤ) (d : List ℕ) :
    followGraph prog untl (fuel + 1) st d
      = if st.all (fun s => untl s) then .ok (some (st, d))
        else if st.any (fun s => !untl s && (prog s == s)) then
          .error "this importance graff was about to cause an infinite loop."
        else followGraph prog untl fuel
          (st.map fun s => if untl s then s else prog s)
          (List.zipWith (fun s d => if untl s then d else d + 1) st d) := rfl

lemma walkBind_ok {α β : Type} {x : Except String (Option α)}
    {f : α → Except String (Option β)} {b : β}
    (h : walkBind x f = .ok (some b)) :
    ∃ a, x = .ok (some a) ∧ f a = .ok (some b) := by
  cases x with
  | error e => exact absurd h (by simp [walkBind])
  | ok o =>
    cases o with
    | none => exact absurd h (by simp [walkBind])
    | some a => exact ⟨a, rfl, h⟩

lemma zipWith_getElem_opt {α β γ : Type _} (f : α → β → γ) :
    ∀ (as : List α) (bs : List β) (i : ℕ),
      (List.zipWith f as bs)[i]?
        = (as[i]?).bind (fun a => (bs[i]?).map (f a)) := by
  intro as
  induction as with
  | nil =>
    intro bs i
    simp
  | cons a as ih =>
    intro bs i
    cases bs with
    | nil =>
      simp
    | cons b bs =>
      cases i with
      | zero => simp
      | succ i => simpa using ih bs i

lemma replicate_getElem_opt {α : Type _} (a : α) :
    ∀ (n i : ℕ), i < n → (List.replicate n a)[i]? = some a := by
  intro n
  induction n with
  | zero => intro i h; omega
  | succ n ih =>
    intro i h
    rw [List.replicate_succ]
    cases i with
    | zero => simp
    | succ i => simpa using ih i (by omega)

lemma getD_of_getElem_opt {α : Type _} {l : List α} {i : ℕ} {x : α} (d : α)
    (h : l[i]? = some x) : l.getD i d = x := by
  rw [List.getD_eq_getElem?_getD, h]
  rfl

lemma all_getD {p : ℤ → Bool} {l : List ℤ} (h : l.all p = true) {k : ℕ}
    (hk : k < l.length) (d : ℤ) : p (l.getD k d) = true := by
  have h1 : l[k]? = some l[k] := List.getElem?_eq_getElem hk
  rw [getD_of_getElem_opt d h1]
  exact List.all_eq_true.mp h _ (List.getElem_mem hk)

lemma map_range_getD {α : Type _} (f : ℕ → α) {n k : ℕ} (hk : k < n) (d : α) :
    ((List.range n).map f).getD k d = f k := by
  apply getD_of_getElem_opt
  rw [List.getElem?_map, List.getElem?_range hk]
  rfl

lemma followGraph_ok_all (prog : ℤ → ℤ) (untl : ℤ → Bool) :
    ∀ (fuel : ℕ) (st : List ℤ) (d : List ℕ) (st' : List ℤ) (d' : List ℕ),
      followGraph prog untl fuel st d = .ok (some (st', d')) →
      st'.all (fun s => untl s) = true := by
  intro fuel
  induction fuel with
  | zero =>
    intro st d st' d' h
    rw [followGraph_zero] at h
    by_cases hall : st.all (fun s => untl s) = true
    · rw [if_pos hall] at h
      injection h with h1
      injection h1 with h2
      injection h2 with h3 h4
      rw [← h3]
      exact hall
    · rw [if_neg hall] at h
      by_cases hloop : st.any (fun s => !untl s && (prog s == s)) = true
      · rw [if_pos hloop] at h
        exact Except.noConfusion h
      · rw [if_neg hloop] at h
        injection h with h1
        exact Option.noConfusion h1
  | succ fuel ih =>
    intro st d st' d' h
    rw [followGraph_succ] at h
    by_cases hall : st.all (fun s => untl s) = true
    · rw [if_pos hall] at h
      injection h with h1
      injection h1 with h2
      injection h2 with h3 h4
      rw [← h3]
      exact hall
    · rw [if_neg hall] at h
      by_cases hloop : st.any (fun s => !untl s && (prog s == s)) = true
      · rw [if_pos hloop] at h
        exact Except.noConfusion h
      · rw [if_neg hloop] at h
        exact ih _ _ _ _ h

lemma followGraph_ok_fixed (prog : ℤ → ℤ) (untl : ℤ → Bool) :
    ∀ (fuel : ℕ) (st : List ℤ) (d : List ℕ) (st' : List ℤ) (d' : List ℕ),
      followGraph prog untl fuel st d = .ok (some (st', d')) →
      ∀ (i : ℕ) (x : ℤ), st[i]? = some x → untl x = true →
        st'[i]? = some x ∧ d'[i]? = d[i]? := by
  intro fuel
  induction fuel with
  | zero =>
    intro st d st' d' h i x hx hu
    rw [followGraph_zero] at h
    by_cases hall : st.all (fun s => untl s) = true
    · rw [if_pos hall] at h
      injection h with h1
      injection h1 with h2
      injection h2 with h3 h4
      rw [← h3, ← h4]
      exact ⟨hx, rfl⟩
    · rw [if_neg hall] at h
      by_cases hloop : st.any (fun s => !untl s && (prog s == s)) = true
      · rw [if_pos hloop] at h
        exact Except.noConfusion h
      · rw [if_neg hloop] at h
        injection h with h1
        exact Option.noConfusion h1
  | succ fuel ih =>
    intro st d st' d' h i x hx hu
    rw [followGraph_succ] at h
    by_cases hall : st.all (fun s => untl s) = true
    · rw [if_pos hall] at h
      injection h with h1
      injection h1 with h2
      injection h2 with h3 h4
      rw [← h3, ← h4]
      exact ⟨hx, rfl⟩
    · rw [if_neg hall] at h
      by_cases hloop : st.any (fun s => !untl s && (prog s == s)) = true
      · rw [if_pos hloop] at h
        exact Except.noConfusion h
      · rw [if_neg hloop] at h
        have hst2 : (st.map fun s => if untl s then s else prog s)[i]?
            = some x := by
          rw [List.getElem?_map, hx]
          simp [hu]
        have hd2 : (List.zipWith (fun s d => if untl s then d else d + 1)
            st d)[i]? = d[i]? := by
          rw [zipWith_getElem_opt, hx]
          simp [hu]
        obtain ⟨ha, hb⟩ := ih _ _ _ _ h i x hst2 hu
        exact ⟨ha, hb.trans hd2⟩

lemma followGraph_ok_len (prog : ℤ → ℤ) (untl : ℤ → Bool) :
    ∀ (fuel : ℕ) (st : List ℤ) (d : List ℕ) (st' : List ℤ) (d' : List ℕ),
      d.length = st.length →
      followGraph prog untl fuel st d = .ok (some (st', d')) →
      st'.length = st.length ∧ d'.length = d.length := by
  intro fuel
  induction fuel with
  | zero =>
    intro st d st' d' hd h
    rw [followGraph_zero] at h
    by_cases hall : st.all (fun s => untl s) = true
    · rw [if_pos hall] at h
      injection h with h1
      injection h1 with h2
      injection h2 with h3 h4
      rw [← h3, ← h4]
      exact ⟨rfl, rfl⟩
    · rw [if_neg hall] at h
      by_cases hloop : st.any (fun s => !untl s && (prog s == s)) = true
      · rw [if_pos hloop] at h
        exact Except.noConfusion h
      · rw [if_neg hloop] at h
        injection h with h1
        exact Option.noConfusion h1
  | succ fuel ih =>
    intro st d st' d' hd h
    rw [followGraph_succ] at h
    by_cases hall : st.all (fun s => untl s) = true
    · rw [if_pos hall] at h
      injection h with h1
      injection h1 with h2
      injection h2 with h3 h4
      rw [← h3, ← h4]
      exact ⟨rfl, rfl⟩
    · rw [if_neg hall] at h
      by_cases hloop : st.any (fun s => !untl s && (prog s == s)) = true
      · rw [if_pos hloop] at h
        exact Except.noConfusion h
      · rw [if_neg hloop] at h
        have hd2 : (List.zipWith (fun s d => if untl s then d else d + 1)
              st d).length
            = (st.map fun s => if untl s then s else prog s).length := by
          rw [List.length_zipWith, List.length_map]
          omega
        obtain ⟨ha, hb⟩ := ih _ _ _ _ hd2 h
        rw [List.length_map] at ha
        rw [hd2, List.length_map] at hb
        exact ⟨ha, by omega⟩

lemma giw_props {da db : ℚ} (ha : 0 ≤ da) (hb : 0 ≤ db) :
    0 ≤ (getInterpolationWeits da db).1 ∧ 0 ≤ (getInterpolationWeits da db).2
      ∧ (getInterpolationWeits da db).1 + (getInterpolationWeits da db).2
          = 1 := by
  simp only [getInterpolationWeits]
  rcases eq_or_ne (da + db) 0 with h | h
  · rw [if_neg (fun hc => hc h)]
    norm_num
  · rw [if_pos h]
    have hpos : 0 < da + db := lt_of_le_of_ne (by linarith) (Ne.symm h)
    refine ⟨div_nonneg hb hpos.le, ?_, by ring⟩
    have hle : db / (da + db) ≤ 1 := (div_le_one hpos).mpr (by linarith)
    linarith

lemma filter_rank {α : Type _} (p : α → Bool) :
    ∀ (l : List α) (i : ℕ) (x : α), l[i]? = some x → p x = true →
      (l.filter p)[(l.take (i + 1)).countP p - 1]? = some x := by
  intro l
  induction l with
  | nil =>
    intro i x hx _
    simp at hx
  | cons a tl ih =>
    intro i x hx hp
    cases i with
    | zero =>
      rw [List.getElem?_cons_zero] at hx
      injection hx with hx
      subst hx
      have e1 : (a :: tl).filter p = a :: tl.filter p := by
        rw [List.filter_cons, if_pos hp]
      have e2 : ((a :: tl).take (0 + 1)).countP p = 1 := by
        rw [List.take_succ_cons, List.take_zero, List.countP_cons,
          List.countP_nil, if_pos hp]
      rw [e1, e2]
      simp
    | succ i =>
      rw [List.getElem?_cons_succ] at hx
      have hmem : x ∈ tl.take (i + 1) := by
        have h1 : (tl.take (i + 1))[i]? = some x := by
          rw [List.getElem?_take_of_lt (by omega)]
          exact hx
        obtain ⟨hlt, hEl⟩ := List.getElem?_eq_some.mp h1
        exact hEl ▸ List.getElem_mem hlt
      have hpos : 0 < (tl.take (i + 1)).countP p :=
        List.countP_pos.mpr ⟨x, hmem, hp⟩
      obtain ⟨c, hc⟩ : ∃ c, (tl.take (i + 1)).countP p = c + 1 :=
        ⟨(tl.take (i + 1)).countP p - 1, by omega⟩
      have hih := ih i x hx hp
      rw [hc, Nat.add_sub_cancel] at hih
      by_cases hpa : p a = true
      · have e1 : (a :: tl).filter p = a :: tl.filter p := by
          rw [List.filter_cons, if_pos hpa]
        have e2 : ((a :: tl).take (i + 1 + 1)).countP p = c + 2 := by
          rw [List.take_succ_cons, List.countP_cons, hc, if_pos hpa]
        rw [e1, e2]
        have e3 : c + 2 - 1 = c + 1 := by omega
        rw [e3, List.getElem?_cons_succ]
        exact hih
      · have e1 : (a :: tl).filter p = tl.filter p := by
          rw [List.filter_cons, if_neg hpa]
        have e2 : ((a :: tl).take (i + 1 + 1)).countP p = c + 1 := by
          rw [List.take_succ_cons, List.countP_cons, hc, if_neg hpa]
        rw [e1, e2, Nat.add_sub_cancel]
        exact hih

lemma reduce_rank {isd : ℕ → Bool} {n : ℕ}
    (positions : List (ℚ × ℚ)) {k : ℕ} (hk : k < n) (hd : isd k = true) :
    pyGetL (((List.range n).filter (fun m => isd m)).map
        (fun m => positions.getD m (0, 0))) (0, 0) (reindexOf isd k)
      = positions.getD k (0, 0) := by
  have hrank := filter_rank (fun m => isd m) (List.range n) k k
    (by rw [List.getElem?_range hk]) hd
  rw [List.take_range] at hrank
  have hmin : min (k + 1) n = k + 1 := by omega
  rw [hmin] at hrank
  have hreidx : reindexOf isd k
      = ((List.range (k + 1)).countP (fun m => isd m) : ℤ) - 1 := by
    unfold reindexOf
    rw [if_pos hd]
  have hcpos : 1 ≤ (List.range (k + 1)).countP (fun m => isd m) := by
    have h0 : 0 < (List.range (k + 1)).countP (fun m => isd m) :=
      List.countP_pos.mpr ⟨k, List.mem_range.mpr (by omega), hd⟩
    omega
  unfold pyGetL
  rw [hreidx]
  have hwrap : wrapIdx ((((List.range n).filter (fun m => isd m)).map
        (fun m => positions.getD m (0, 0))).length)
        (((List.range (k + 1)).countP (fun m => isd m) : ℤ) - 1)
      = (List.range (k + 1)).countP (fun m => isd m) - 1 := by
    unfold wrapIdx
    rw [if_neg (by omega)]
    omega
  rw [hwrap]
  apply getD_of_getElem_opt
  rw [List.getElem?_map, hrank]
  rfl

lemma isd_imp_hdn {t : Table} {factor : ℕ} {ewf : ℕ → ℤ} {m : ℕ}
    (h : isDefOf t factor ewf m = true) : hdnOf t factor ewf m = true := by
  simp only [isDefOf] at h
  exact (Bool.and_eq_true_iff.mp h).2

lemma canon_isd_bound {S R C : ℕ} (hS : 1 ≤ S) (hR : 1 ≤ R) (hC : 1 ≤ C)
    (factor : ℕ) (ewf : ℕ → ℤ) {m : ℕ}
    (h : isDefOf (canonTable S R C) factor ewf m = true) : m < S * R * C := by
  by_contra hge
  have h2 := isd_imp_hdn h
  rw [canon_hdn hS hR hC] at h2
  rw [if_neg (by omega)] at h2
  exact Bool.false_ne_true h2

lemma restore_unit_comb (p : ℚ × ℚ) :
    add2 (add2 (smul2 ((1:ℚ) * 1) p) (smul2 ((1:ℚ) * 0) p))
        (add2 (smul2 ((0:ℚ) * 1) p) (smul2 ((0:ℚ) * 0) p)) = p := by
  rcases p with ⟨p1, p2⟩
  simp [add2, smul2]

lemma tab_lt_nFull {t : Table} {x : ℕ × ℕ × ℕ} (hx : x ∈ t.triples)
    (hnn : 0 ≤ t.tab x.1 x.2.1 x.2.2) :
    t.tab x.1 x.2.1 x.2.2 < (t.nFull : ℤ) := by
  have hmem : t.tab x.1 x.2.1 x.2.2
      ∈ t.triples.map (fun hij => t.tab hij.1 hij.2.1 hij.2.2) :=
    List.mem_map.mpr ⟨x, hx, rfl⟩
  have hle := le_foldl_max _ (-1) hmem
  unfold Table.nFull Table.nFullZ
  omega

lemma isd_bound {t : Table}
    (hfd : ∀ x ∈ t.triples, 0 ≤ t.tab x.1 x.2.1 x.2.2)
    {factor : ℕ} {ewf : ℕ → ℤ} {m : ℕ}
    (h : isDefOf t factor ewf m = true) : m < t.nFull := by
  by_contra hge
  have h2 := isd_imp_hdn h
  simp only [hdnOf] at h2
  rw [if_neg (by omega)] at h2
  have hproj : (rawFlags t factor ewf).1
      = t.triples.foldl
          (fun f x => if t.tab x.1 x.2.1 x.2.2 ≠ -1
            then orAt f (t.nFull + 1) (t.tab x.1 x.2.1 x.2.2)
                (importantRow t.R factor x.2.1)
            else f)
          (fun _ => false) := by
    unfold rawFlags
    refine foldl_proj Prod.fst _ _ (fun s a => ?_) _ _
    dsimp only
    split_ifs <;> rfl
  rw [hproj, foldl_orAt_char] at h2
  have hemp : t.triples.filter (fun x =>
      decide (t.tab x.1 x.2.1 x.2.2 ≠ -1)
      && (wrapIdx (t.nFull + 1) (t.tab x.1 x.2.1 x.2.2) == m)) = [] := by
    rw [List.filter_eq_nil_iff]
    intro x hx hpx
    rw [Bool.and_eq_true_iff] at hpx
    obtain ⟨-, hp2⟩ := hpx
    have hnn := hfd x hx
    have hlt := tab_lt_nFull hx hnn
    have hw : wrapIdx (t.nFull + 1) (t.tab x.1 x.2.1 x.2.2) < t.nFull := by
      unfold wrapIdx
      rw [if_neg (by omega)]
      omega
    have := eq_of_beq hp2
    omega
  rw [hemp] at h2
  simp at h2

/-- C3: on every fully-defined lookup table (each slot holds a real node
index, i.e. no `-1` entries; the same node may fill several slots, as on
stitched section boundaries), whenever `mesh_skeleton` produces a
skeleton, every node's four restoration weights are non-negative and sum
to 1, its four directional references are key (`is_defined`) nodes, the
corresponding row of `restore @ (reduce @ positions)` is exactly that
convex combination of the referenced original positions, and at each key
node the row reproduces `positions` exactly. -/
theorem mesh_skeleton_restore_convex {t : Table} {factor : ℕ}
    {ewf : ℕ → ℤ}
    (hfd : ∀ x ∈ t.triples, 0 ≤ t.tab x.1 x.2.1 x.2.2) {sk : Skeleton}
    (hok : meshSkeletonCore t factor ewf = Except.ok (some sk))
    (positions : List (ℚ × ℚ)) (hlen : positions.length = t.nFull)
    {k : ℕ} (hk : k < t.nFull) :
    convexWeights (sk.weits.getD k (0, 0, 0, 0))
    ∧ (sk.isDef (wrapIdx t.nFull (sk.refs.getD k (-1, -1, -1, -1)).1)
          = true
       ∧ sk.isDef (wrapIdx t.nFull (sk.refs.getD k (-1, -1, -1, -1)).2.1)
          = true
       ∧ sk.isDef
            (wrapIdx t.nFull (sk.refs.getD k (-1, -1, -1, -1)).2.2.1)
          = true
       ∧ sk.isDef
            (wrapIdx t.nFull (sk.refs.getD k (-1, -1, -1, -1)).2.2.2)
          = true)
    ∧ (restoreApply sk (reduceApply sk positions)).getD k (0, 0)
        = restoreRowFormula t.nFull positions
            (sk.refs.getD k (-1, -1, -1, -1)) (sk.weits.getD k (0, 0, 0, 0))
    ∧ (sk.isDef k = true →
        (restoreApply sk (reduceApply sk positions)).getD k (0, 0)
          = positions.getD k (0, 0)) := by
  simp only [meshSkeletonCore] at hok
  obtain ⟨nWalk, hw1, hok⟩ := walkBind_ok hok
  obtain ⟨ns, nd⟩ := nWalk
  dsimp only at hok
  obtain ⟨neWalk, hw2, hok⟩ := walkBind_ok hok
  obtain ⟨nes, ned⟩ := neWalk
  dsimp only at hok
  obtain ⟨nwWalk, hw3, hok⟩ := walkBind_ok hok
  obtain ⟨nws, nwd⟩ := nwWalk
  dsimp only at hok
  obtain ⟨sWalk, hw4, hok⟩ := walkBind_ok hok
  obtain ⟨ss, sd⟩ := sWalk
  dsimp only at hok
  obtain ⟨seWalk, hw5, hok⟩ := walkBind_ok hok
  obtain ⟨ses, sed⟩ := seWalk
  dsimp only at hok
  obtain ⟨swWalk, hw6, hok⟩ := walkBind_ok hok
  obtain ⟨sws, swd⟩ := swWalk
  dsimp only at hok
  injection hok with hok1
  injection hok1 with hok2
  have hf1 : sk.nFull = t.nFull := by rw [← hok2]
  have hf2 : sk.isDef = isDefOf t factor ewf := by
    rw [← hok2]
  have hf3 : sk.reindex = reindexOf (isDefOf t factor ewf)
      := by rw [← hok2]
  have hf4 : sk.refs = (List.range t.nFull).map (fun j =>
      (nes.getD j (-1), nws.getD j (-1), ses.getD j (-1), sws.getD j (-1)))
      := by rw [← hok2]
  have hf5 : sk.weits = (List.range t.nFull).map (fun j =>
      ((getInterpolationWeits ((nd.getD j 0 : ℕ) : ℚ)
            ((sd.getD j 0 : ℕ) : ℚ)).1
          * (getInterpolationWeits ((ned.getD j 0 : ℕ) : ℚ)
            ((nwd.getD j 0 : ℕ) : ℚ)).1,
       (getInterpolationWeits ((nd.getD j 0 : ℕ) : ℚ)
            ((sd.getD j 0 : ℕ) : ℚ)).1
          * (getInterpolationWeits ((ned.getD j 0 : ℕ) : ℚ)
            ((nwd.getD j 0 : ℕ) : ℚ)).2,
       (getInterpolationWeits ((nd.getD j 0 : ℕ) : ℚ)
            ((sd.getD j 0 : ℕ) : ℚ)).2
          * (getInterpolationWeits ((sed.getD j 0 : ℕ) : ℚ)
            ((swd.getD j 0 : ℕ) : ℚ)).1,
       (getInterpolationWeits ((nd.getD j 0 : ℕ) : ℚ)
            ((sd.getD j 0 : ℕ) : ℚ)).2
          * (getInterpolationWeits ((sed.getD j 0 : ℕ) : ℚ)
            ((swd.getD j 0 : ℕ) : ℚ)).2)) := by rw [← hok2]
  have hL1 := followGraph_ok_len _ _ _ _ _ _ _ (by simp) hw1
  have hnsl : ns.length = t.nFull := by rw [hL1.1]; simp
  have hL2 := followGraph_ok_len _ _ _ _ _ _ _ (by simp [hnsl]) hw2
  have hnesl : nes.length = t.nFull := by rw [hL2.1, hnsl]
  have hL3 := followGraph_ok_len _ _ _ _ _ _ _ (by simp [hnsl]) hw3
  have hnwsl : nws.length = t.nFull := by rw [hL3.1, hnsl]
  have hL4 := followGraph_ok_len _ _ _ _ _ _ _ (by simp) hw4
  have hssl : ss.length = t.nFull := by rw [hL4.1]; simp
  have hL5 := followGraph_ok_len _ _ _ _ _ _ _ (by simp [hssl]) hw5
  have hsesl : ses.length = t.nFull := by rw [hL5.1, hssl]
  have hL6 := followGraph_ok_len _ _ _ _ _ _ _ (by simp [hssl]) hw6
  have hswsl : sws.length = t.nFull := by rw [hL6.1, hssl]
  have hA2 := followGraph_ok_all _ _ _ _ _ _ _ hw2
  have hA3 := followGraph_ok_all _ _ _ _ _ _ _ hw3
  have hA5 := followGraph_ok_all _ _ _ _ _ _ _ hw5
  have hA6 := followGraph_ok_all _ _ _ _ _ _ _ hw6
  have hke : isDefOf t factor ewf
      (wrapIdx t.nFull (nes.getD k (-1))) = true :=
    all_getD hA2 (by rw [hnesl]; exact hk) (-1)
  have hkw : isDefOf t factor ewf
      (wrapIdx t.nFull (nws.getD k (-1))) = true :=
    all_getD hA3 (by rw [hnwsl]; exact hk) (-1)
  have hkse : isDefOf t factor ewf
      (wrapIdx t.nFull (ses.getD k (-1))) = true :=
    all_getD hA5 (by rw [hsesl]; exact hk) (-1)
  have hksw : isDefOf t factor ewf
      (wrapIdx t.nFull (sws.getD k (-1))) = true :=
    all_getD hA6 (by rw [hswsl]; exact hk) (-1)
  have hterm : ∀ r : ℤ,
      isDefOf t factor ewf (wrapIdx t.nFull r)
        = true →
      pyGetL (((List.range t.nFull).filter
          (fun m => isDefOf t factor ewf m)).map
          (fun m => positions.getD m (0, 0))) (0, 0)
        (pyGetF (reindexOf (isDefOf t factor ewf))
          t.nFull r)
        = positions.getD (wrapIdx t.nFull r) (0, 0) := by
    intro r hr
    have hlt := isd_bound hfd hr
    show pyGetL _ _
        (reindexOf (isDefOf t factor ewf)
          (wrapIdx t.nFull r)) = _
    exact reduce_rank positions hlt hr
  have hform : (restoreApply sk (reduceApply sk positions)).getD k (0, 0)
      = restoreRowFormula t.nFull positions
          (sk.refs.getD k (-1, -1, -1, -1))
          (sk.weits.getD k (0, 0, 0, 0)) := by
    simp only [restoreApply, reduceApply]
    rw [hf1, hf2, hf3, hf4, hf5]
    rw [map_range_getD _ hk]
    try dsimp only
    rw [map_range_getD _ hk, map_range_getD _ hk]
    try dsimp only
    rw [hterm _ hke, hterm _ hkw, hterm _ hkse, hterm _ hksw]
    simp only [restoreRowFormula]
  refine ⟨?_, ⟨?_, ?_, ?_, ?_⟩, hform, ?_⟩
  · rw [hf5, map_range_getD _ hk]
    simp only [convexWeights]
    obtain ⟨ha1, ha2, ha3⟩ := giw_props
      (show (0:ℚ) ≤ ((nd.getD k 0 : ℕ) : ℚ) from Nat.cast_nonneg _)
      (show (0:ℚ) ≤ ((sd.getD k 0 : ℕ) : ℚ) from Nat.cast_nonneg _)
    obtain ⟨hb1, hb2, hb3⟩ := giw_props
      (show (0:ℚ) ≤ ((ned.getD k 0 : ℕ) : ℚ) from Nat.cast_nonneg _)
      (show (0:ℚ) ≤ ((nwd.getD k 0 : ℕ) : ℚ) from Nat.cast_nonneg _)
    obtain ⟨hc1, hc2, hc3⟩ := giw_props
      (show (0:ℚ) ≤ ((sed.getD k 0 : ℕ) : ℚ) from Nat.cast_nonneg _)
      (show (0:ℚ) ≤ ((swd.getD k 0 : ℕ) : ℚ) from Nat.cast_nonneg _)
    refine ⟨mul_nonneg ha1 hb1, mul_nonneg ha1 hb2, mul_nonneg ha2 hc1,
      mul_nonneg ha2 hc2, ?_⟩
    set A := getInterpolationWeits ((nd.getD k 0 : ℕ) : ℚ)
      ((sd.getD k 0 : ℕ) : ℚ) with hA
    set B := getInterpolationWeits ((ned.getD k 0 : ℕ) : ℚ)
      ((nwd.getD k 0 : ℕ) : ℚ) with hB
    set D := getInterpolationWeits ((sed.getD k 0 : ℕ) : ℚ)
      ((swd.getD k 0 : ℕ) : ℚ) with hD
    show A.1 * B.1 + A.1 * B.2 + A.2 * D.1 + A.2 * D.2 = 1
    linear_combination A.1 * hb3 + A.2 * hc3 + ha3
  · rw [hf2, hf4, map_range_getD _ hk]
    exact hke
  · rw [hf2, hf4, map_range_getD _ hk]
    exact hkw
  · rw [hf2, hf4, map_range_getD _ hk]
    exact hkse
  · rw [hf2, hf4, map_range_getD _ hk]
    exact hksw
  · intro hkd
    rw [hf2] at hkd
    have hdnk : hdnOf t factor ewf k = true :=
      isd_imp_hdn hkd
    have hzk : (List.replicate t.nFull (0:ℕ))[k]? = some 0 :=
      replicate_getElem_opt _ _ _ hk
    have hfrk : ((List.range t.nFull).map
        (fun j : ℕ => (j : ℤ)))[k]? = some ((k : ℕ) : ℤ) := by
      rw [List.getElem?_map, List.getElem?_range hk]
      rfl
    have hkdq : pyGetF (isDefOf t factor ewf) t.nFull
        ((k : ℕ) : ℤ) = true := by
      unfold pyGetF
      rw [wrapIdx_natCast]
      exact hkd
    have hhdq : pyGetF (hdnOf t factor ewf) (t.nFull + 1)
        ((k : ℕ) : ℤ) = true := by
      unfold pyGetF
      rw [wrapIdx_natCast]
      exact hdnk
    have hF1 := followGraph_ok_fixed _ _ _ _ _ _ _ hw1 k ((k : ℕ) : ℤ)
      hfrk hhdq
    have hnsk : ns[k]? = some ((k : ℕ) : ℤ) := hF1.1
    have hndk : nd[k]? = some 0 := hF1.2.trans hzk
    have hF2 := followGraph_ok_fixed _ _ _ _ _ _ _ hw2 k ((k : ℕ) : ℤ)
      hnsk hkdq
    have hnesk : nes[k]? = some ((k : ℕ) : ℤ) := hF2.1
    have hnedk : ned[k]? = some 0 := hF2.2.trans hzk
    have hF3 := followGraph_ok_fixed _ _ _ _ _ _ _ hw3 k ((k : ℕ) : ℤ)
      hnsk hkdq
    have hnwsk : nws[k]? = some ((k : ℕ) : ℤ) := hF3.1
    have hnwdk : nwd[k]? = some 0 := hF3.2.trans hzk
    have hF4 := followGraph_ok_fixed _ _ _ _ _ _ _ hw4 k ((k : ℕ) : ℤ)
      hfrk hhdq
    have hssk : ss[k]? = some ((k : ℕ) : ℤ) := hF4.1
    have hsdk : sd[k]? = some 0 := hF4.2.trans hzk
    have hF5 := followGraph_ok_fixed _ _ _ _ _ _ _ hw5 k ((k : ℕ) : ℤ)
      hssk hkdq
    have hsesk : ses[k]? = some ((k : ℕ) : ℤ) := hF5.1
    have hsedk : sed[k]? = some 0 := hF5.2.trans hzk
    have hF6 := followGraph_ok_fixed _ _ _ _ _ _ _ hw6 k ((k : ℕ) : ℤ)
      hssk hkdq
    have hswsk : sws[k]? = some ((k : ℕ) : ℤ) := hF6.1
    have hswdk : swd[k]? = some 0 := hF6.2.trans hzk
    rw [hform, hf4, hf5, map_range_getD _ hk, map_range_getD _ hk]
    try dsimp only
    rw [getD_of_getElem_opt (-1) hnesk, getD_of_getElem_opt (-1) hnwsk,
      getD_of_getElem_opt (-1) hsesk, getD_of_getElem_opt (-1) hswsk,
      getD_of_getElem_opt 0 hndk, getD_of_getElem_opt 0 hsdk,
      getD_of_getElem_opt 0 hnedk, getD_of_getElem_opt 0 hnwdk,
      getD_of_getElem_opt 0 hsedk, getD_of_getElem_opt 0 hswdk]
    have hg : getInterpolationWeits ((0 : ℕ) : ℚ) ((0 : ℕ) : ℚ) = (1, 0)
        := by norm_num [getInterpolationWeits]
    rw [hg]
    simp only [restoreRowFormula]
    try dsimp only
    rw [wrapIdx_natCast]
    exact restore_unit_comb _

set_option maxRecDepth 10000 in
/-- Witness for the C3 theorem: the fully-defined 1×2×2 grid with factor 1
and column stride 1 yields a skeleton, and the theorem's conclusions hold
there at node 0. -/
theorem mesh_skeleton_restore_convex_witness :
    (∀ x ∈ (canonTable 1 2 2).triples,
        0 ≤ (canonTable 1 2 2).tab x.1 x.2.1 x.2.2)
    ∧ meshSkeletonCore (canonTable 1 2 2) 1 (fun _ => 1)
        = Except.ok (some skel122)
    ∧ ([((0:ℚ), (0:ℚ)), (1, 0), (0, 1), (1, 1)] : List (ℚ × ℚ)).length
        = (canonTable 1 2 2).nFull
    ∧ convexWeights (skel122.weits.getD 0 (0, 0, 0, 0)) :=
  ⟨by decide, rfl, by decide,
    (mesh_skeleton_restore_convex (by decide)
      (rfl : meshSkeletonCore (canonTable 1 2 2) 1 (fun _ => 1)
        = Except.ok (some skel122))
      [((0:ℚ), (0:ℚ)), (1, 0), (0, 1), (1, 1)] (by decide)
      (show 0 < (canonTable 1 2 2).nFull by decide)).1⟩

end Elastik
